import Mathlib

/-!
# Verification of the weighted-graph shortest-path engine (`task_3.py`)

A shallow embedding of the Dijkstra shortest-path module:
the `Graph` adjacency-list container (`add_vertex`, `add_edge`),
the lazy-deletion Dijkstra loop `dijkstra_with_paths`, and the route
reconstruction `reconstruct_path`.

Modelling choices:
* Vertex labels are modelled as naturals.  The data model requires only an
  opaque, comparable, totally ordered label type (order is used solely for
  the heap tie-break), so the Python `str` labels are replaced by `ℕ`.
* Edge weights and distances are modelled as rationals (`ℚ`), the exact-
  arithmetic idealisation of the Python floats; the value `float("inf")`
  that marks an unknown distance is modelled by `none` in `Option ℚ`.
* Python dictionaries (`graph.adj`, `dist`, `prev`) are modelled as
  association lists in insertion order: a write to an existing key replaces
  the value in place, a write to a fresh key appends at the end, and a read
  of a missing key is a `KeyError` (here: `none`, propagated as `DRes.keyErr`
  or `RRes.keyErr`).
* The `heapq` binary heap is modelled by the list of its entries: a push
  appends, a pop removes an entry that is minimal in the lexicographic
  order on `(distance, vertex)` pairs, exactly the tuple order Python uses.
  Which representative of the minimal value is removed is irrelevant, and
  is proved irrelevant below (the loop is invariant under permutations of
  the heap list).
* The two unbounded `while` loops are given explicit fuel.  For the
  Dijkstra loop the fuel `outDegSum g + 1` is proved sufficient for every
  well-formed graph with non-negative weights (each vertex is settled at
  most once, so at most one queue entry per edge plus the seed is ever
  popped); for the reconstruction walk the fuel `p.length + 1` is proved
  sufficient whenever the predecessor chain terminates, and a run that
  exhausts it corresponds to a Python execution that never terminates.
-/

/-- Association-list read, Python dict read: the first matching key wins,
a missing key is `none` (a `KeyError` at the call sites). -/
def lookA {α : Type} : List (ℕ × α) → ℕ → Option α
  | [], _ => none
  | (k, a) :: rest, v => if k = v then some a else lookA rest v

/-- Association-list write, Python dict write: replace in place if the key is
present, append at the end if it is fresh. -/
def setA {α : Type} : List (ℕ × α) → ℕ → α → List (ℕ × α)
  | [], v, a => [(v, a)]
  | (k, b) :: rest, v, a => if k = v then (v, a) :: rest else (k, b) :: setA rest v a

/-- The weighted graph of `task_3.py`: adjacency lists behind a dict. -/
structure Graph where
  adj : List (ℕ × List (ℕ × ℚ))
deriving DecidableEq

/-- `Graph()`: the empty graph. -/
def Graph.emptyG : Graph := { adj := [] }

/-- `Graph.add_vertex`: insert `v` with an empty adjacency list if absent. -/
def Graph.add_vertex (g : Graph) (v : ℕ) : Graph :=
  if (lookA g.adj v).isSome then g else { adj := g.adj ++ [(v, [])] }

/-- `self.adj[u].append(e)`: append one entry to the adjacency list of `u`. -/
def Graph.appendEdge (g : Graph) (u : ℕ) (e : ℕ × ℚ) : Graph :=
  { adj := setA g.adj u ((lookA g.adj u).getD [] ++ [e]) }

/-- `Graph.add_edge`: ensure both endpoints exist, append `(v, weight)` to
`u`'s list, and if `undirected` also append `(u, weight)` to `v`'s list. -/
def Graph.add_edge (g : Graph) (u v : ℕ) (weight : ℚ) (undirected : Bool := false) : Graph :=
  let g1 := (g.add_vertex u).add_vertex v
  let g2 := g1.appendEdge u (v, weight)
  if undirected then g2.appendEdge v (u, weight) else g2

/-- The vertices known to the graph, in insertion order (the dict keys). -/
def vkeys (g : Graph) : List ℕ := g.adj.map Prod.fst

/-- The adjacency list of `u` (empty for an unknown vertex; only used in
specifications — the algorithm itself reads `g.adj` through `lookA`). -/
def nbrs (g : Graph) (u : ℕ) : List (ℕ × ℚ) := (lookA g.adj u).getD []

/-- Total number of adjacency-list entries of the graph. -/
def outDegSum (g : Graph) : Nat := (g.adj.map (fun p => p.2.length)).sum

/-- Python's lexicographic order on the `(distance, vertex)` heap tuples. -/
def entLe (a b : ℚ × ℕ) : Bool := a.1 < b.1 || (a.1 = b.1 && a.2 ≤ b.2)

/-- The minimal heap entry among `a :: l` in the tuple order. -/
def minEnt : (ℚ × ℕ) → List (ℚ × ℕ) → (ℚ × ℕ)
  | a, [] => a
  | a, b :: rest => if entLe a b then minEnt a rest else minEnt b rest

/-- `heapq.heappop` on the entry multiset: return the minimal tuple and the
remaining entries (removing one occurrence of the minimal value). -/
def popMin : List (ℚ × ℕ) → Option ((ℚ × ℕ) × List (ℚ × ℕ))
  | [] => none
  | a :: rest => some (minEnt a rest, (a :: rest).erase (minEnt a rest))

/-- `q < dv` where `dv` is a stored distance (`none` is `float("inf")`). -/
def ltInf (q : ℚ) : Option ℚ → Bool
  | none => true
  | some x => q < x

/-- `d > dv`: the staleness test `current_dist > dist[u]`. -/
def gtVal (d : ℚ) : Option ℚ → Bool
  | none => false
  | some x => x < d

/-- The local state of one `dijkstra_with_paths` call: the graph object the
function reads (never writes), the `dist` and `prev` dicts, and the heap. -/
structure St where
  g : Graph
  dist : List (ℕ × Option ℚ)
  prev : List (ℕ × Option ℕ)
  heap : List (ℚ × ℕ)
deriving DecidableEq

/-- Outcome of the Dijkstra loop: normal return, a `KeyError`, or fuel
exhaustion (which the termination theorem rules out for well-formed input). -/
inductive DRes where
  | ok (st : St)
  | keyErr
  | fuelOut
deriving DecidableEq

/-- The inner `for v, weight in graph.adj[u]` relaxation loop.  `du` is the
popped `current_dist`.  A missing `dist[v]` key is a `KeyError` (`none`). -/
def relax (u : ℕ) (du : ℚ) : List (ℕ × ℚ) → St → Option St
  | [], st => some st
  | (v, w) :: rest, st =>
    match lookA st.dist v with
    | none => none
    | some dv =>
      if ltInf (du + w) dv then
        relax u du rest
          { st with dist := setA st.dist v (some (du + w)),
                    prev := setA st.prev v (some u),
                    heap := st.heap ++ [(du + w, v)] }
      else relax u du rest st

/-- The `while heap:` loop, fuel-indexed.  Pop the minimal entry, discard it
if stale, otherwise relax every outgoing edge of the popped vertex. -/
def dloop : Nat → St → DRes
  | 0, st =>
    match popMin st.heap with
    | none => DRes.ok st
    | some _ => DRes.fuelOut
  | fuel + 1, st =>
    match popMin st.heap with
    | none => DRes.ok st
    | some ((d, u), rest) =>
      match lookA st.dist u with
      | none => DRes.keyErr
      | some du =>
        if gtVal d du then dloop fuel { st with heap := rest }
        else
          match lookA st.g.adj u with
          | none => DRes.keyErr
          | some ns =>
            match relax u d ns { st with heap := rest } with
            | none => DRes.keyErr
            | some st2 => dloop fuel st2

/-- The initial state: `dist[v] = inf` for every known vertex, then
`dist[start] = 0` (appending the key if `start` is unknown), `prev[v] = None`,
and the heap seeded with `(0, start)`. -/
def initSt (g : Graph) (start : ℕ) : St :=
  { g := g
  , dist := setA (g.adj.map (fun p => (p.1, (none : Option ℚ)))) start (some 0)
  , prev := g.adj.map (fun p => (p.1, (none : Option ℕ)))
  , heap := [(0, start)] }

/-- `dijkstra_with_paths(graph, start)`.  The fuel `outDegSum g + 1` is proved
sufficient below for well-formed non-negative input. -/
def dijkstra_with_paths (g : Graph) (start : ℕ) : DRes :=
  dloop (outDegSum g + 1) (initSt g start)

/-- Outcome of `reconstruct_path`: a path (possibly empty), a `KeyError`, or
fuel exhaustion (corresponding to a Python run that cycles forever). -/
inductive RRes where
  | ok (path : List ℕ)
  | keyErr
  | fuelOut
deriving DecidableEq

/-- The post-loop check of `reconstruct_path`: if the last appended vertex is
not `start` the chain was broken (return `[]`), otherwise reverse the path. -/
def rfinish (s : ℕ) (path : List ℕ) : RRes :=
  if path.getLast? = some s then RRes.ok path.reverse else RRes.ok []

/-- The `while cur is not None:` walk of `reconstruct_path`, fuel-indexed.
`path` is the working list built backwards from the target. -/
def rloop (p : List (ℕ × Option ℕ)) (s : ℕ) : Nat → List ℕ → Option ℕ → RRes
  | _, path, none => rfinish s path
  | 0, _, some _ => RRes.fuelOut
  | fuel + 1, path, some c =>
    if c = s then rfinish s (path ++ [c])
    else
      match lookA p c with
      | none => RRes.keyErr
      | some nxt => rloop p s fuel (path ++ [c]) nxt

/-- `reconstruct_path(prev, start, target)`: the `start == target` special
case, the `prev[target] is None` early return (a missing key raising), then
the backward walk. -/
def reconstruct_path (p : List (ℕ × Option ℕ)) (s t : ℕ) : RRes :=
  if s = t then RRes.ok [s]
  else
    match lookA p t with
    | none => RRes.keyErr
    | some none => RRes.ok []
    | some (some _) => rloop p s (p.length + 1) [] (some t)

/-! ## Basic association-list lemmas -/

theorem lookA_setA_self {α : Type} (l : List (ℕ × α)) (k : ℕ) (a : α) :
    lookA (setA l k a) k = some a := by
  induction l with
  | nil => simp [setA, lookA]
  | cons p rest ih =>
    obtain ⟨k', b⟩ := p
    by_cases h : k' = k
    · subst h; simp [setA, lookA]
    · simp [setA, lookA, h, ih]

theorem lookA_setA_ne {α : Type} (l : List (ℕ × α)) (k v : ℕ) (a : α) (h : k ≠ v) :
    lookA (setA l k a) v = lookA l v := by
  induction l with
  | nil => simp [setA, lookA, h]
  | cons p rest ih =>
    obtain ⟨k', b⟩ := p
    by_cases h2 : k' = k
    · subst h2; simp [setA, lookA, h]
    · simp [setA, lookA, h2, ih]

theorem setA_keys_of_mem {α : Type} {l : List (ℕ × α)} {k : ℕ} (a : α)
    (h : k ∈ l.map Prod.fst) : (setA l k a).map Prod.fst = l.map Prod.fst := by
  induction l with
  | nil => simp at h
  | cons p rest ih =>
    obtain ⟨k', b⟩ := p
    by_cases h2 : k' = k
    · subst h2; simp [setA]
    · rcases List.mem_cons.mp h with h3 | h3
      · exact absurd h3.symm h2
      · simp [setA, h2, ih h3]

theorem lookA_mem {α : Type} {l : List (ℕ × α)} {k : ℕ} {a : α}
    (h : lookA l k = some a) : (k, a) ∈ l := by
  induction l with
  | nil => simp [lookA] at h
  | cons p rest ih =>
    obtain ⟨k', b⟩ := p
    by_cases h2 : k' = k
    · subst h2
      simp [lookA] at h
      simp [h]
    · simp [lookA, h2] at h
      simp [ih h]

theorem lookA_isSome_of_mem_keys {α : Type} {l : List (ℕ × α)} {k : ℕ}
    (h : k ∈ l.map Prod.fst) : ∃ a, lookA l k = some a := by
  induction l with
  | nil => simp at h
  | cons p rest ih =>
    obtain ⟨k', b⟩ := p
    by_cases h2 : k' = k
    · subst h2; exact ⟨b, by simp [lookA]⟩
    · rcases List.mem_cons.mp h with h3 | h3
      · exact absurd h3.symm h2
      · obtain ⟨a, ha⟩ := ih h3
        exact ⟨a, by simp [lookA, h2, ha]⟩

theorem mem_keys_of_lookA {α : Type} {l : List (ℕ × α)} {k : ℕ} {a : α}
    (h : lookA l k = some a) : k ∈ l.map Prod.fst :=
  List.mem_map.mpr ⟨(k, a), lookA_mem h, rfl⟩

theorem lookA_none_of_not_mem_keys {α : Type} {l : List (ℕ × α)} {k : ℕ}
    (h : k ∉ l.map Prod.fst) : lookA l k = none := by
  cases h2 : lookA l k with
  | none => rfl
  | some a => exact absurd (mem_keys_of_lookA h2) h

/-- Reading a pointwise-initialised dict: same keys, constant value. -/
theorem lookA_map_init {α β : Type} (l : List (ℕ × α)) (c : β) (v : ℕ) :
    lookA (l.map (fun p => (p.1, c))) v = (lookA l v).map (fun _ => c) := by
  induction l with
  | nil => simp [lookA]
  | cons p rest ih =>
    obtain ⟨k, a⟩ := p
    by_cases h : k = v
    · subst h; simp [lookA]
    · simp [lookA, h, ih]

theorem lookA_append_of_none {α : Type} {l : List (ℕ × α)} {k : ℕ}
    (h : lookA l k = none) (l2 : List (ℕ × α)) : lookA (l ++ l2) k = lookA l2 k := by
  induction l with
  | nil => simp
  | cons p rest ih =>
    obtain ⟨k', b⟩ := p
    by_cases h2 : k' = k
    · subst h2; simp [lookA] at h
    · simp [lookA, h2] at h ⊢
      exact ih h

theorem lookA_append_of_some {α : Type} {l : List (ℕ × α)} {k : ℕ} {a : α}
    (h : lookA l k = some a) (l2 : List (ℕ × α)) : lookA (l ++ l2) k = some a := by
  induction l with
  | nil => simp [lookA] at h
  | cons p rest ih =>
    obtain ⟨k', b⟩ := p
    by_cases h2 : k' = k
    · subst h2; simp [lookA] at h ⊢; exact h
    · simp [lookA, h2] at h ⊢
      exact ih h

/-! ## Heap-order lemmas -/

theorem entLe_iff {a b : ℚ × ℕ} :
    entLe a b = true ↔ (a.1 < b.1 ∨ (a.1 = b.1 ∧ a.2 ≤ b.2)) := by
  simp [entLe, Bool.or_eq_true, Bool.and_eq_true, decide_eq_true_eq]

theorem entLe_total (a b : ℚ × ℕ) : entLe a b = true ∨ entLe b a = true := by
  rw [entLe_iff, entLe_iff]
  rcases lt_trichotomy a.1 b.1 with h | h | h
  · exact Or.inl (Or.inl h)
  · rcases le_total a.2 b.2 with h2 | h2
    · exact Or.inl (Or.inr ⟨h, h2⟩)
    · exact Or.inr (Or.inr ⟨h.symm, h2⟩)
  · exact Or.inr (Or.inl h)

theorem entLe_trans {a b c : ℚ × ℕ} (h1 : entLe a b = true) (h2 : entLe b c = true) :
    entLe a c = true := by
  rw [entLe_iff] at h1 h2 ⊢
  rcases h1 with h1 | h1 <;> rcases h2 with h2 | h2
  · exact Or.inl (h1.trans h2)
  · exact Or.inl (h2.1 ▸ h1)
  · exact Or.inl (h1.1 ▸ h2)
  · exact Or.inr ⟨h1.1.trans h2.1, h1.2.trans h2.2⟩

theorem entLe_antisymm {a b : ℚ × ℕ} (h1 : entLe a b = true) (h2 : entLe b a = true) :
    a = b := by
  rw [entLe_iff] at h1 h2
  rcases h1 with h1 | h1 <;> rcases h2 with h2 | h2
  · exact absurd (h1.trans h2) (lt_irrefl _)
  · exact absurd h1 (h2.1 ▸ lt_irrefl _)
  · exact absurd h2 (h1.1 ▸ lt_irrefl _)
  · exact Prod.ext h1.1 (le_antisymm h1.2 h2.2)

theorem entLe_fst {a b : ℚ × ℕ} (h : entLe a b = true) : a.1 ≤ b.1 := by
  rw [entLe_iff] at h
  rcases h with h | h
  · exact h.le
  · exact h.1.le

theorem minEnt_mem (a : ℚ × ℕ) (l : List (ℚ × ℕ)) : minEnt a l ∈ a :: l := by
  induction l generalizing a with
  | nil => simp [minEnt]
  | cons b rest ih =>
    by_cases h : entLe a b = true
    · have h1 := ih a
      rw [minEnt, if_pos h]
      rcases List.mem_cons.mp h1 with h2 | h2
      · simp [h2]
      · simp [List.mem_cons.mpr (Or.inr h2)]
    · have h1 := ih b
      rw [minEnt, if_neg h]
      rcases List.mem_cons.mp h1 with h2 | h2
      · simp [h2]
      · simp [List.mem_cons.mpr (Or.inr h2)]

theorem minEnt_le (a : ℚ × ℕ) (l : List (ℚ × ℕ)) :
    ∀ b ∈ a :: l, entLe (minEnt a l) b = true := by
  induction l generalizing a with
  | nil =>
    intro b hb
    rcases List.mem_cons.mp hb with h | h
    · subst h
      simpa [minEnt] using (entLe_total b b).elim id id
    · simp at h
  | cons c rest ih =>
    intro b hb
    by_cases h : entLe a c = true
    · rw [minEnt, if_pos h]
      rcases List.mem_cons.mp hb with h2 | h2
      · exact h2 ▸ ih a a (by simp)
      · rcases List.mem_cons.mp h2 with h3 | h3
        · exact h3 ▸ entLe_trans (ih a a (by simp)) h
        · exact ih a b (List.mem_cons.mpr (Or.inr h3))
    · have hca : entLe c a = true := (entLe_total a c).resolve_left h
      rw [minEnt, if_neg h]
      rcases List.mem_cons.mp hb with h2 | h2
      · exact h2 ▸ entLe_trans (ih c c (by simp)) hca
      · rcases List.mem_cons.mp h2 with h3 | h3
        · exact h3 ▸ ih c c (by simp)
        · exact ih c b (List.mem_cons.mpr (Or.inr h3))

theorem popMin_mem {h : List (ℚ × ℕ)} {m : ℚ × ℕ} {rest : List (ℚ × ℕ)}
    (hp : popMin h = some (m, rest)) : m ∈ h := by
  cases h with
  | nil => simp [popMin] at hp
  | cons a l =>
    simp [popMin] at hp
    exact hp.1 ▸ minEnt_mem a l

theorem popMin_le {h : List (ℚ × ℕ)} {m : ℚ × ℕ} {rest : List (ℚ × ℕ)}
    (hp : popMin h = some (m, rest)) : ∀ b ∈ h, entLe m b = true := by
  cases h with
  | nil => simp [popMin] at hp
  | cons a l =>
    simp [popMin] at hp
    exact hp.1 ▸ minEnt_le a l

theorem popMin_rest {h : List (ℚ × ℕ)} {m : ℚ × ℕ} {rest : List (ℚ × ℕ)}
    (hp : popMin h = some (m, rest)) : rest = h.erase m := by
  cases h with
  | nil => simp [popMin] at hp
  | cons a l =>
    simp [popMin] at hp
    rw [← hp.2, hp.1]

theorem popMin_none {h : List (ℚ × ℕ)} (hp : popMin h = none) : h = [] := by
  cases h with
  | nil => rfl
  | cons a l => simp [popMin] at hp

/-! ## Graph well-formedness and walks -/

/-- Well-formed graph data: distinct dict keys (automatic for a Python dict),
adjacency targets are known vertices (automatic for graphs built through
`add_edge`), and non-negative edge weights (the documented precondition). -/
structure GWF (g : Graph) : Prop where
  nodup : (vkeys g).Nodup
  closed : ∀ p ∈ g.adj, ∀ q ∈ p.2, q.1 ∈ vkeys g
  nonneg : ∀ p ∈ g.adj, ∀ q ∈ p.2, 0 ≤ q.2

theorem GWF.nbrs_closed {g : Graph} (hg : GWF g) {u : ℕ} {q : ℕ × ℚ}
    (hq : q ∈ nbrs g u) : q.1 ∈ vkeys g := by
  unfold nbrs at hq
  cases h : lookA g.adj u with
  | none => rw [h] at hq; simp at hq
  | some l =>
    rw [h] at hq
    exact hg.closed (u, l) (lookA_mem h) q hq

theorem GWF.nbrs_nonneg {g : Graph} (hg : GWF g) {u : ℕ} {q : ℕ × ℚ}
    (hq : q ∈ nbrs g u) : 0 ≤ q.2 := by
  unfold nbrs at hq
  cases h : lookA g.adj u with
  | none => rw [h] at hq; simp at hq
  | some l =>
    rw [h] at hq
    exact hg.nonneg (u, l) (lookA_mem h) q hq

/-- A walk from `s` to a vertex, with its accumulated weight (edges are taken
from the adjacency lists, so multi-edges and self-loops are all available;
the weight accumulates exactly as the algorithm accumulates `current_dist`). -/
inductive WalkW (g : Graph) (s : ℕ) : ℕ → ℚ → Prop
  | refl : WalkW g s s 0
  | step {u : ℕ} {c : ℚ} {v : ℕ} {w : ℚ} :
      WalkW g s u c → (v, w) ∈ nbrs g u → WalkW g s v (c + w)

theorem WalkW.nonneg {g : Graph} (hg : GWF g) {s v : ℕ} {c : ℚ}
    (h : WalkW g s v c) : 0 ≤ c := by
  induction h with
  | refl => exact le_refl 0
  | step _ he ih => exact add_nonneg ih (hg.nbrs_nonneg he)

/-- A concrete vertex sequence is a path of the graph with the given total
weight: some choice of adjacency entries joins the consecutive vertices and
their weights sum to the total. -/
inductive PathW (g : Graph) : List ℕ → ℚ → Prop
  | single (v : ℕ) : PathW g [v] 0
  | cons {a b : ℕ} {w c : ℚ} {rest : List ℕ} :
      (b, w) ∈ nbrs g a → PathW g (b :: rest) c → PathW g (a :: b :: rest) (w + c)

theorem PathW.snoc {g : Graph} {P : List ℕ} {c : ℚ} {u v : ℕ} {w : ℚ}
    (hp : PathW g P c) (hl : P.getLast? = some u) (he : (v, w) ∈ nbrs g u) :
    PathW g (P ++ [v]) (c + w) := by
  induction hp with
  | single a =>
    simp at hl
    subst hl
    simpa [zero_add, add_comm] using PathW.cons he (PathW.single v)
  | cons hab hp2 ih =>
    rename_i a b w2 c2 rest
    have hl2 : (b :: rest).getLast? = some u := by
      rw [List.getLast?_cons_cons] at hl
      exact hl
    have := PathW.cons hab (ih hl2)
    simpa [add_assoc] using this

/-! ## The settled predicate, the measure, and the loop invariant -/

/-- A vertex is settled once its recorded distance is at or below the popped
watermark `low` and no queue entry carries that recorded distance: from such
a state the algorithm can never improve the vertex again. -/
def Settled (st : St) (low : ℚ) (v : ℕ) : Prop :=
  ∃ x : ℚ, lookA st.dist v = some (some x) ∧ x ≤ low ∧ (x, v) ∉ st.heap

/-- Boolean form of `Settled`, for use inside the termination measure. -/
def settledB (st : St) (low : ℚ) (v : ℕ) : Bool :=
  match lookA st.dist v with
  | some (some x) => decide (x ≤ low) && !(decide ((x, v) ∈ st.heap))
  | some none => false
  | none => false

theorem settledB_iff {st : St} {low : ℚ} {v : ℕ} :
    settledB st low v = true ↔ Settled st low v := by
  unfold settledB Settled
  cases h : lookA st.dist v with
  | none => simp
  | some o =>
    cases o with
    | none => simp
    | some x => simp [h]

/-- Termination measure of the Dijkstra loop: pending queue entries plus the
out-degrees of the not-yet-settled vertices. -/
def measureD (g : Graph) (st : St) (low : ℚ) : ℕ :=
  st.heap.length +
    (((vkeys g).filter (fun v => !(settledB st low v))).map (fun v => (nbrs g v).length)).sum

/-- The core loop invariant of `dijkstra_with_paths`, relative to the
watermark `low` (a lower bound on every queue entry, `0` initially,
afterwards the last popped distance).  `DInv0` omits only the edge-relaxation
clause, which is temporarily broken for the popped vertex while its
adjacency list is being processed. -/
structure DInv0 (g : Graph) (s : ℕ) (low : ℚ) (st : St) : Prop where
  graphEq : st.g = g
  distKeys : st.dist.map Prod.fst = vkeys g
  prevKeys : st.prev.map Prod.fst = vkeys g
  lowNN : 0 ≤ low
  startMemK : s ∈ vkeys g
  startZero : lookA st.dist s = some (some 0)
  startPrev : lookA st.prev s = some none
  heapMem : ∀ q ∈ st.heap, ∃ x : ℚ, lookA st.dist q.2 = some (some x) ∧ x ≤ q.1 ∧ low ≤ q.1
  heapDup : ∀ u : ℕ, ((st.heap.filter (fun q => q.2 = u)).map Prod.fst).Nodup
  sound : ∀ v x, lookA st.dist v = some (some x) → WalkW g s v x
  prevLink : ∀ v u, lookA st.prev v = some (some u) →
    ∃ w x y, (v, w) ∈ nbrs g u ∧ lookA st.dist u = some (some x) ∧
      lookA st.dist v = some (some y) ∧ y = x + w ∧ Settled st low u
  prevNone : ∀ v, lookA st.prev v = some none → lookA st.dist v = some none ∨ v = s
  rank : ∃ (N : ℕ) (r : ℕ → ℕ), (∀ v, ¬ Settled st low v → r v = N) ∧
    (∀ v, Settled st low v → r v < N) ∧
    (∀ v u, lookA st.prev v = some (some u) → r u < r v)

/-- The full loop invariant: the core plus the relaxation clause, stating
that every vertex with a finite recorded distance either still has a live
queue entry at that distance or has all its outgoing edges relaxed. -/
structure DInv (g : Graph) (s : ℕ) (low : ℚ) (st : St) extends DInv0 g s low st : Prop where
  relaxed : ∀ u x, lookA st.dist u = some (some x) →
    (x, u) ∈ st.heap ∨ ∀ q ∈ nbrs g u, ∃ y, lookA st.dist q.1 = some (some y) ∧ y ≤ x + q.2

/-! ## Preservation of the invariant by a single relaxation update -/

/-- The state after one successful relaxation update of vertex `v` through
the popped vertex `u` (`nd` is the candidate distance `current_dist + w`). -/
def updSt (st : St) (u v : ℕ) (nd : ℚ) : St :=
  { st with dist := setA st.dist v (some nd),
            prev := setA st.prev v (some u),
            heap := st.heap ++ [(nd, v)] }

theorem relax_update {g : Graph} {s u : ℕ} {du : ℚ} {st : St} {v : ℕ} {w : ℚ} {dv : Option ℚ}
    (hg : GWF g)
    (core : DInv0 g s du st)
    (uD : lookA st.dist u = some (some du))
    (uH : (du, u) ∉ st.heap)
    (he : (v, w) ∈ nbrs g u)
    (hdv : lookA st.dist v = some dv)
    (hlt : ltInf (du + w) dv = true) :
    DInv0 g s du (updSt st u v (du + w)) ∧
    (∀ z, lookA (updSt st u v (du + w)).dist z =
      if z = v then some (some (du + w)) else lookA st.dist z) ∧
    (∀ z, lookA (updSt st u v (du + w)).prev z =
      if z = v then some (some u) else lookA st.prev z) ∧
    (∀ z, Settled st du z ↔ Settled (updSt st u v (du + w)) du z) ∧
    v ≠ u ∧ v ≠ s ∧ (du, u) ∉ (updSt st u v (du + w)).heap := by
  have hw : 0 ≤ w := hg.nbrs_nonneg he
  have hdu : 0 ≤ du := core.lowNN
  have hvK : v ∈ vkeys g := by
    have := mem_keys_of_lookA hdv
    rw [core.distKeys] at this
    exact this
  -- the update is a strict improvement, so `v` is neither `s` nor `u`,
  -- and `v` is not settled
  have hvs : v ≠ s := by
    intro hvs
    subst hvs
    rw [core.startZero] at hdv
    cases hdv
    simp [ltInf, decide_eq_true_eq] at hlt
    have : (0 : ℚ) ≤ du + w := add_nonneg hdu hw
    exact absurd hlt (not_lt.mpr this)
  have hvu : v ≠ u := by
    intro hvu
    subst hvu
    rw [uD] at hdv
    cases hdv
    simp [ltInf, decide_eq_true_eq] at hlt
    exact absurd hlt (not_lt.mpr hw)
  have hvUnsettled : ¬ Settled st du v := by
    rintro ⟨xv, hxv, hxle, -⟩
    rw [hdv] at hxv
    cases hxv
    simp [ltInf, decide_eq_true_eq] at hlt
    have : xv ≤ du + w := le_add_of_nonneg_right hw |>.trans' hxle
    exact absurd hlt (not_lt.mpr this)
  -- lookup characterisations
  have lookD : ∀ z, lookA (updSt st u v (du + w)).dist z =
      if z = v then some (some (du + w)) else lookA st.dist z := by
    intro z
    by_cases hz : z = v
    · subst hz
      simp [updSt, lookA_setA_self]
    · simp [updSt, hz, lookA_setA_ne st.dist v z _ (fun h => hz h.symm)]
  have lookP : ∀ z, lookA (updSt st u v (du + w)).prev z =
      if z = v then some (some u) else lookA st.prev z := by
    intro z
    by_cases hz : z = v
    · subst hz
      simp [updSt, lookA_setA_self]
    · simp [updSt, hz, lookA_setA_ne st.prev v z _ (fun h => hz h.symm)]
  have heapEq : (updSt st u v (du + w)).heap = st.heap ++ [(du + w, v)] := rfl
  have uH2 : (du, u) ∉ (updSt st u v (du + w)).heap := by
    rw [heapEq]
    intro hmem
    rcases List.mem_append.mp hmem with hmem | hmem
    · exact uH hmem
    · simp at hmem
      exact hvu hmem.2.symm
  -- if the old value was finite, it strictly exceeds the candidate
  have hOldBig : ∀ y, dv = some y → du + w < y := by
    intro y hy
    subst hy
    simpa [ltInf, decide_eq_true_eq] using hlt
  have settledIff : ∀ z, Settled st du z ↔ Settled (updSt st u v (du + w)) du z := by
    intro z
    constructor
    · rintro ⟨x, hx, hle, hni⟩
      have hz : z ≠ v := fun h => hvUnsettled (h ▸ ⟨x, hx, hle, hni⟩)
      refine ⟨x, ?_, hle, ?_⟩
      · rw [lookD z, if_neg hz]; exact hx
      · rw [heapEq]
        intro hmem
        rcases List.mem_append.mp hmem with hmem | hmem
        · exact hni hmem
        · simp at hmem
          exact hz hmem.2
    · rintro ⟨x, hx, hle, hni⟩
      by_cases hz : z = v
      · exfalso
        apply hni
        rw [lookD z, if_pos hz] at hx
        cases hx
        rw [heapEq, hz]
        simp
      · rw [lookD z, if_neg hz] at hx
        refine ⟨x, hx, hle, fun hmem => hni ?_⟩
        rw [heapEq]
        exact List.mem_append.mpr (Or.inl hmem)
  refine ⟨?_, lookD, lookP, settledIff, hvu, hvs, uH2⟩
  constructor
  case graphEq => exact core.graphEq
  case distKeys =>
    have : v ∈ st.dist.map Prod.fst := by rw [core.distKeys]; exact hvK
    show (setA st.dist v (some (du + w))).map Prod.fst = vkeys g
    rw [setA_keys_of_mem _ this, core.distKeys]
  case prevKeys =>
    have : v ∈ st.prev.map Prod.fst := by rw [core.prevKeys]; exact hvK
    show (setA st.prev v (some u)).map Prod.fst = vkeys g
    rw [setA_keys_of_mem _ this, core.prevKeys]
  case lowNN => exact core.lowNN
  case startMemK => exact core.startMemK
  case startZero =>
    rw [lookD s, if_neg (fun h => hvs h.symm)]
    exact core.startZero
  case startPrev =>
    rw [lookP s, if_neg (fun h => hvs h.symm)]
    exact core.startPrev
  case heapMem =>
    intro q hq
    rw [heapEq] at hq
    rcases List.mem_append.mp hq with hq | hq
    · obtain ⟨x, hx, hxle, hlow⟩ := core.heapMem q hq
      by_cases hz : q.2 = v
      · rw [hz] at hx
        rw [hdv] at hx
        cases hx
        refine ⟨du + w, ?_, ?_, hlow⟩
        · rw [lookD q.2, if_pos hz]
        · exact le_trans (hOldBig x rfl).le hxle
      · exact ⟨x, by rw [lookD q.2, if_neg hz]; exact hx, hxle, hlow⟩
    · simp only [List.mem_singleton] at hq
      rcases hq with rfl
      refine ⟨du + w, ?_, le_refl _, le_add_of_nonneg_right hw⟩
      show lookA (updSt st u v (du + w)).dist v = some (some (du + w))
      rw [lookD v, if_pos rfl]
  case heapDup =>
    intro z
    rw [heapEq, List.filter_append]
    by_cases hz : z = v
    · rw [hz]
      have hfilter : List.filter (fun q => decide (q.2 = v)) [((du + w : ℚ), v)] = [(du + w, v)] := by
        simp
      rw [hfilter, List.map_append]
      simp only [List.map_cons, List.map_nil]
      rw [List.nodup_append]
      refine ⟨core.heapDup v, List.nodup_singleton _, ?_⟩
      intro x hx
      simp only [List.mem_singleton]
      intro hcontra
      subst hcontra
      -- an old entry for `v` carries value `du + w`, but old entries dominate
      -- the old recorded distance of `v`, which strictly exceeds `du + w`
      rcases List.mem_map.mp hx with ⟨q, hqmem, hqfst⟩
      rcases List.mem_filter.mp hqmem with ⟨hqh, hqv⟩
      simp only [decide_eq_true_eq] at hqv
      obtain ⟨x0, hx0, hx0le, -⟩ := core.heapMem q hqh
      rw [hqv, hdv] at hx0
      cases hx0
      have := hOldBig x0 rfl
      rw [hqfst] at hx0le
      exact absurd (lt_of_le_of_lt hx0le this) (lt_irrefl _)
    · have hvz : v ≠ z := fun h => hz h.symm
      have hfilter : List.filter (fun q => decide (q.2 = z)) [((du + w : ℚ), v)] = [] := by
        simp [hvz]
      rw [hfilter, List.append_nil]
      exact core.heapDup z
  case sound =>
    intro z x hx
    rw [lookD z] at hx
    by_cases hz : z = v
    · rw [if_pos hz] at hx
      cases hx
      subst hz
      exact WalkW.step (core.sound u du uD) he
    · rw [if_neg hz] at hx
      exact core.sound z x hx
  case prevLink =>
    intro z zu hz
    rw [lookP z] at hz
    by_cases hzv : z = v
    · rw [if_pos hzv] at hz
      cases hz
      rw [hzv]
      refine ⟨w, du, du + w, he, ?_, ?_, rfl, ?_⟩
      · rw [lookD u, if_neg (fun h => hvu h.symm)]; exact uD
      · rw [lookD v, if_pos rfl]
      · exact ⟨du, by rw [lookD u, if_neg (fun h => hvu h.symm)]; exact uD, le_refl du, uH2⟩
    · rw [if_neg hzv] at hz
      obtain ⟨w', x', y', he', hu', hv', heq', hsett'⟩ := core.prevLink z zu hz
      have hzuv : zu ≠ v := by
        intro h
        apply hvUnsettled
        rw [← h]
        exact hsett'
      refine ⟨w', x', y', he', ?_, ?_, heq', (settledIff zu).mp hsett'⟩
      · rw [lookD zu, if_neg hzuv]; exact hu'
      · rw [lookD z, if_neg hzv]; exact hv'
  case prevNone =>
    intro z hz
    rw [lookP z] at hz
    by_cases hzv : z = v
    · rw [if_pos hzv] at hz
      cases hz
    · rw [if_neg hzv] at hz
      rcases core.prevNone z hz with h | h
      · left; rw [lookD z, if_neg hzv]; exact h
      · right; exact h
  case rank =>
    obtain ⟨N, r, h1, h2, h3⟩ := core.rank
    refine ⟨N, r, ?_, ?_, ?_⟩
    · intro z hzn
      exact h1 z (fun hsz => hzn ((settledIff z).mp hsz))
    · intro z hsz
      exact h2 z ((settledIff z).mpr hsz)
    · intro z zu hz
      rw [lookP z] at hz
      by_cases hzv : z = v
      · rw [if_pos hzv] at hz
        cases hz
        rw [hzv, h1 v hvUnsettled]
        exact h2 u ⟨du, uD, le_refl du, uH⟩
      · rw [if_neg hzv] at hz
        exact h3 z zu hz

/-! ## The relax fold -/

/-- Mid-relaxation invariant: the core invariant holds at watermark `du`
(the popped distance of vertex `u`), `u` is already settled at `du`, every
vertex other than `u` satisfies the relaxation clause, and the prefix `done`
of `u`'s adjacency list is already relaxed. -/
structure RInv (g : Graph) (s u : ℕ) (du : ℚ) (done : List (ℕ × ℚ)) (st : St) : Prop where
  core : DInv0 g s du st
  uDist : lookA st.dist u = some (some du)
  uHeap : (du, u) ∉ st.heap
  relOther : ∀ z x, z ≠ u → lookA st.dist z = some (some x) →
    (x, z) ∈ st.heap ∨ ∀ q ∈ nbrs g z, ∃ y, lookA st.dist q.1 = some (some y) ∧ y ≤ x + q.2
  relDone : ∀ q ∈ done, ∃ y, lookA st.dist q.1 = some (some y) ∧ y ≤ du + q.2

theorem relax_spec {g : Graph} {s u : ℕ} {du : ℚ} (hg : GWF g) :
    ∀ (rem done : List (ℕ × ℚ)) (st : St), nbrs g u = done ++ rem →
    RInv g s u du done st →
    ∃ st2, relax u du rem st = some st2 ∧ RInv g s u du (done ++ rem) st2 ∧
      st2.heap.length ≤ st.heap.length + rem.length ∧
      (∀ z, Settled st du z ↔ Settled st2 du z) := by
  intro rem
  induction rem with
  | nil =>
    intro done st hsplit hri
    refine ⟨st, rfl, ?_, by simp, fun z => Iff.rfl⟩
    simpa using hri
  | cons q0 rem ih =>
    obtain ⟨v, w⟩ := q0
    intro done st hsplit hri
    have he : (v, w) ∈ nbrs g u := by rw [hsplit]; simp
    have hvK : v ∈ vkeys g := hg.nbrs_closed he
    have hvD : ∃ dv, lookA st.dist v = some dv :=
      lookA_isSome_of_mem_keys (by rw [hri.core.distKeys]; exact hvK)
    obtain ⟨dv, hdv⟩ := hvD
    have hsplit2 : nbrs g u = (done ++ [(v, w)]) ++ rem := by
      rw [hsplit, List.append_assoc]
      simp
    cases hltc : ltInf (du + w) dv with
    | true =>
      obtain ⟨core2, lookD, lookP, sIff, hvu, hvs, uH2⟩ :=
        relax_update hg hri.core hri.uDist hri.uHeap he hdv hltc
      have hltBig : ∀ y, dv = some y → du + w < y := by
        intro y hy
        rw [hy] at hltc
        simpa [ltInf, decide_eq_true_eq] using hltc
      have heq : relax u du ((v, w) :: rem) st = relax u du rem (updSt st u v (du + w)) := by
        rw [relax, hdv]
        simp only [hltc, if_pos]
        rfl
      have uDist2 : lookA (updSt st u v (du + w)).dist u = some (some du) := by
        rw [lookD u, if_neg (fun h => hvu h.symm)]
        exact hri.uDist
      have relOther2 : ∀ z x, z ≠ u → lookA (updSt st u v (du + w)).dist z = some (some x) →
          (x, z) ∈ (updSt st u v (du + w)).heap ∨
          ∀ q ∈ nbrs g z, ∃ y, lookA (updSt st u v (du + w)).dist q.1 = some (some y) ∧
            y ≤ x + q.2 := by
        intro z x hzu hx
        rw [lookD z] at hx
        by_cases hzv : z = v
        · rw [if_pos hzv] at hx
          cases hx
          left
          show (du + w, z) ∈ st.heap ++ [(du + w, v)]
          rw [hzv]
          simp
        · rw [if_neg hzv] at hx
          rcases hri.relOther z x hzu hx with hpend | hrel
          · left
            exact List.mem_append.mpr (Or.inl hpend)
          · right
            intro q hq
            obtain ⟨y, hy, hyle⟩ := hrel q hq
            by_cases hq1 : q.1 = v
            · refine ⟨du + w, ?_, ?_⟩
              · rw [lookD q.1, if_pos hq1]
              · rw [hq1] at hy
                rw [hdv] at hy
                cases hy
                exact le_trans (hltBig y rfl).le hyle
            · exact ⟨y, by rw [lookD q.1, if_neg hq1]; exact hy, hyle⟩
      have relDone2 : ∀ q ∈ done ++ [(v, w)],
          ∃ y, lookA (updSt st u v (du + w)).dist q.1 = some (some y) ∧ y ≤ du + q.2 := by
        intro q hq
        rcases List.mem_append.mp hq with hq | hq
        · obtain ⟨y, hy, hyle⟩ := hri.relDone q hq
          by_cases hq1 : q.1 = v
          · refine ⟨du + w, ?_, ?_⟩
            · rw [lookD q.1, if_pos hq1]
            · rw [hq1] at hy
              rw [hdv] at hy
              cases hy
              exact le_trans (hltBig y rfl).le hyle
          · exact ⟨y, by rw [lookD q.1, if_neg hq1]; exact hy, hyle⟩
        · simp only [List.mem_singleton] at hq
          rcases hq with rfl
          refine ⟨du + w, ?_, le_refl _⟩
          show lookA (updSt st u v (du + w)).dist v = some (some (du + w))
          rw [lookD v, if_pos rfl]
      obtain ⟨st2, hr2, hri2, hlen2, sIff2⟩ :=
        ih (done ++ [(v, w)]) (updSt st u v (du + w)) hsplit2
          ⟨core2, uDist2, uH2, relOther2, relDone2⟩
      refine ⟨st2, by rw [heq]; exact hr2, ?_, ?_, fun z => (sIff z).trans (sIff2 z)⟩
      · rw [List.append_assoc] at hri2
        simpa using hri2
      · have hupl : (updSt st u v (du + w)).heap.length = st.heap.length + 1 := by
          show (st.heap ++ [(du + w, v)]).length = st.heap.length + 1
          simp
        rw [hupl] at hlen2
        simp only [List.length_cons]
        exact le_trans hlen2 (by ring_nf; exact le_refl _)
    | false =>
      have heq : relax u du ((v, w) :: rem) st = relax u du rem st := by
        rw [relax, hdv]
        simp only [hltc]
        rfl
      have hdvy : ∃ y, dv = some y ∧ y ≤ du + w := by
        cases dv with
        | none => simp [ltInf] at hltc
        | some y =>
          refine ⟨y, rfl, ?_⟩
          simpa [ltInf, decide_eq_true_eq, not_lt] using hltc
      obtain ⟨y, rfl, hyle⟩ := hdvy
      have relDone2 : ∀ q ∈ done ++ [(v, w)],
          ∃ y2, lookA st.dist q.1 = some (some y2) ∧ y2 ≤ du + q.2 := by
        intro q hq
        rcases List.mem_append.mp hq with hq | hq
        · exact hri.relDone q hq
        · simp only [List.mem_singleton] at hq
          rcases hq with rfl
          exact ⟨y, hdv, hyle⟩
      obtain ⟨st2, hr2, hri2, hlen2, sIff2⟩ :=
        ih (done ++ [(v, w)]) st hsplit2
          ⟨hri.core, hri.uDist, hri.uHeap, hri.relOther, relDone2⟩
      refine ⟨st2, by rw [heq]; exact hr2, ?_, ?_, sIff2⟩
      · rw [List.append_assoc] at hri2
        simpa using hri2
      · simp only [List.length_cons]
        exact le_trans hlen2 (by omega)

/-! ## Pop-step helpers -/

theorem settled_mono {st st2 : St} {low low2 : ℚ} {z : ℕ}
    (hlow : low ≤ low2) (hdist : st2.dist = st.dist)
    (hheap : ∀ q, q ∈ st2.heap → q ∈ st.heap)
    (h : Settled st low z) : Settled st2 low2 z := by
  obtain ⟨x, hx, hle, hni⟩ := h
  exact ⟨x, by rw [hdist]; exact hx, hle.trans hlow, fun hmem => hni (hheap _ hmem)⟩

/-- Rebuild the rank certificate after the watermark rises: previously
settled vertices keep their rank, newly settled ones get rank `N`, and the
still-unsettled ones get rank `N + 1`. -/
theorem rank_rebuild {g : Graph} {s : ℕ} {low : ℚ} {st : St} (h0 : DInv0 g s low st)
    (st2 : St) (low2 : ℚ)
    (hprev : st2.prev = st.prev)
    (hmono : ∀ z, Settled st low z → Settled st2 low2 z) :
    ∃ (N2 : ℕ) (r2 : ℕ → ℕ), (∀ z, ¬ Settled st2 low2 z → r2 z = N2) ∧
      (∀ z, Settled st2 low2 z → r2 z < N2) ∧
      (∀ z zu, lookA st2.prev z = some (some zu) → r2 zu < r2 z) := by
  obtain ⟨N, r, h1, h2, h3⟩ := h0.rank
  refine ⟨N + 1,
    fun z => if settledB st2 low2 z then (if settledB st low z then r z else N) else N + 1,
    ?_, ?_, ?_⟩
  · intro z hz
    show (if settledB st2 low2 z = true then (if settledB st low z = true then r z else N)
      else N + 1) = N + 1
    rw [if_neg (fun hb => hz (settledB_iff.mp hb))]
  · intro z hz
    show (if settledB st2 low2 z = true then (if settledB st low z = true then r z else N)
      else N + 1) < N + 1
    rw [if_pos (settledB_iff.mpr hz)]
    by_cases hb : settledB st low z = true
    · rw [if_pos hb]
      exact Nat.lt_succ_of_lt (h2 z (settledB_iff.mp hb))
    · rw [if_neg hb]
      exact Nat.lt_succ_self N
  · intro z zu hz
    rw [hprev] at hz
    have hlink := h3 z zu hz
    obtain ⟨w, x, y, he, hu, hv, heq, hsett⟩ := h0.prevLink z zu hz
    have hzuOld : settledB st low zu = true := settledB_iff.mpr hsett
    have hzuNew : settledB st2 low2 zu = true :=
      settledB_iff.mpr (hmono zu hsett)
    show (if settledB st2 low2 zu = true then (if settledB st low zu = true then r zu else N)
      else N + 1) <
      (if settledB st2 low2 z = true then (if settledB st low z = true then r z else N)
      else N + 1)
    rw [if_pos hzuNew, if_pos hzuOld]
    have hzuN : r zu < N := h2 zu hsett
    by_cases hb2 : settledB st2 low2 z = true
    · rw [if_pos hb2]
      by_cases hb1 : settledB st low z = true
      · rw [if_pos hb1]
        exact hlink
      · rw [if_neg hb1]
        exact hzuN
    · rw [if_neg hb2]
      exact Nat.lt_succ_of_lt hzuN

theorem nodup_vals_not_mem_erase :
    ∀ (l : List (ℚ × ℕ)) (d : ℚ) (u : ℕ),
    ((l.filter (fun q => q.2 = u)).map Prod.fst).Nodup →
    (d, u) ∉ l.erase (d, u) := by
  intro l
  induction l with
  | nil => intro d u _ hmem; simp at hmem
  | cons a rest ih =>
    intro d u hnd hmem
    by_cases ha : a = (d, u)
    · rw [ha, List.erase_cons_head] at hmem
      rw [ha] at hnd
      have hpass : List.filter (fun q => decide (q.2 = u)) ((d, u) :: rest) =
          (d, u) :: List.filter (fun q => decide (q.2 = u)) rest := by
        simp
      rw [hpass, List.map_cons, List.nodup_cons] at hnd
      apply hnd.1
      exact List.mem_map.mpr ⟨(d, u), List.mem_filter.mpr ⟨hmem, by simp⟩, rfl⟩
    · rw [List.erase_cons_tail (by simp [ha])] at hmem
      rcases List.mem_cons.mp hmem with h | h
      · exact ha h.symm
      · apply ih d u ?_ h
        by_cases hau : a.2 = u
        · rw [List.filter_cons_of_pos (by simp [hau]), List.map_cons, List.nodup_cons] at hnd
          exact hnd.2
        · rw [List.filter_cons_of_neg (by simp [hau])] at hnd
          exact hnd

/-- A heap whose per-vertex entry values are distinct contains each tuple at
most once. -/
theorem heap_mem_once {st : St}
    (hdup : ∀ u : ℕ, ((st.heap.filter (fun q => q.2 = u)).map Prod.fst).Nodup)
    {d : ℚ} {u : ℕ} : (d, u) ∉ st.heap.erase (d, u) :=
  nodup_vals_not_mem_erase st.heap d u (hdup u)

theorem sum_filter_le {α : Type} (l : List α) (f : α → ℕ) (p q : α → Bool)
    (himp : ∀ a, p a = true → q a = true) :
    ((l.filter p).map f).sum ≤ ((l.filter q).map f).sum := by
  induction l with
  | nil => simp
  | cons a rest ih =>
    by_cases hp : p a = true
    · rw [List.filter_cons_of_pos hp, List.filter_cons_of_pos (himp a hp)]
      simp only [List.map_cons, List.sum_cons]
      omega
    · rw [List.filter_cons_of_neg hp]
      by_cases hq : q a = true
      · rw [List.filter_cons_of_pos hq]
        simp only [List.map_cons, List.sum_cons]
        omega
      · rw [List.filter_cons_of_neg hq]
        exact ih

theorem sum_filter_drop {α : Type} [DecidableEq α] (l : List α) (f : α → ℕ) (p q : α → Bool)
    (u : α) (hnd : l.Nodup) (hu : u ∈ l) (hpu : p u = false) (hqu : q u = true)
    (himp : ∀ a, p a = true → q a = true) :
    ((l.filter p).map f).sum + f u ≤ ((l.filter q).map f).sum := by
  induction l with
  | nil => simp at hu
  | cons a rest ih =>
    rcases List.mem_cons.mp hu with rfl | hu2
    · rw [List.filter_cons_of_neg (by rw [hpu]; exact Bool.false_ne_true),
        List.filter_cons_of_pos hqu]
      simp only [List.map_cons, List.sum_cons]
      have := sum_filter_le rest f p q himp
      omega
    · have hnd2 : rest.Nodup := (List.nodup_cons.mp hnd).2
      have hih := ih hnd2 hu2
      by_cases hp : p a = true
      · rw [List.filter_cons_of_pos hp, List.filter_cons_of_pos (himp a hp)]
        simp only [List.map_cons, List.sum_cons]
        omega
      · rw [List.filter_cons_of_neg hp]
        by_cases hq : q a = true
        · rw [List.filter_cons_of_pos hq]
          simp only [List.map_cons, List.sum_cons]
          omega
        · rw [List.filter_cons_of_neg hq]
          exact hih

/-- Popping a stale entry preserves the invariant at the popped watermark. -/
theorem step_stale {g : Graph} {s : ℕ} {low : ℚ} {st : St} {d : ℚ} {u : ℕ}
    {rest : List (ℚ × ℕ)} {du : ℚ}
    (hI : DInv g s low st)
    (hp : popMin st.heap = some ((d, u), rest))
    (hdu : lookA st.dist u = some (some du))
    (hstale : gtVal d (some du) = true) :
    DInv g s d { st with heap := rest } ∧
    (∀ z, Settled st low z → Settled { st with heap := rest } d z) := by
  have hmem : (d, u) ∈ st.heap := popMin_mem hp
  obtain ⟨x, hx, hxd, hlowd⟩ := hI.heapMem (d, u) hmem
  rw [hdu] at hx
  cases hx
  have hduLt : du < d := by simpa [gtVal, decide_eq_true_eq] using hstale
  have hrest : rest = st.heap.erase (d, u) := popMin_rest hp
  have hsub : ∀ q, q ∈ rest → q ∈ st.heap := by
    intro q hq
    rw [hrest] at hq
    exact List.mem_of_mem_erase hq
  have hdle : ∀ q, q ∈ rest → d ≤ q.1 := fun q hq => entLe_fst (popMin_le hp q (hsub q hq))
  have hlowle : low ≤ d := hlowd
  have hmono : ∀ z, Settled st low z → Settled { st with heap := rest } d z :=
    fun z => settled_mono hlowle rfl hsub
  refine ⟨⟨⟨hI.graphEq, hI.distKeys, hI.prevKeys, hI.lowNN.trans hlowle, hI.startMemK,
    hI.startZero, hI.startPrev, ?_, ?_, hI.sound, ?_, ?_, ?_⟩, ?_⟩, hmono⟩
  · -- heapMem
    intro q hq
    obtain ⟨x2, hx2, hx2le, -⟩ := hI.heapMem q (hsub q hq)
    exact ⟨x2, hx2, hx2le, hdle q hq⟩
  · -- heapDup
    intro z
    have hsl : List.Sublist rest st.heap := by
      rw [hrest]
      exact st.heap.erase_sublist (d, u)
    exact List.Nodup.sublist (List.Sublist.map Prod.fst (List.Sublist.filter _ hsl))
      (hI.heapDup z)
  · -- prevLink
    intro z zu hz
    obtain ⟨w, x2, y2, he, hu2, hv2, heq2, hsett⟩ := hI.prevLink z zu hz
    exact ⟨w, x2, y2, he, hu2, hv2, heq2, hmono zu hsett⟩
  · -- prevNone
    exact hI.prevNone
  · -- rank
    exact rank_rebuild hI.toDInv0 _ d rfl hmono
  · -- relaxed
    intro z x2 hx2
    rcases hI.relaxed z x2 hx2 with hpend | hrel
    · left
      have hne : (x2, z) ≠ (d, u) := by
        intro hcontra
        cases hcontra
        rw [hdu] at hx2
        cases hx2
        exact absurd hduLt (lt_irrefl _)
      rw [hrest]
      exact (List.mem_erase_of_ne hne).mpr hpend
    · right
      exact hrel

/-- Popping a live entry: the popped vertex has its final distance, all its
edges get relaxed, it becomes settled, and the invariant moves to the new
watermark. -/
theorem step_good {g : Graph} {s : ℕ} {low : ℚ} {st : St} {d : ℚ} {u : ℕ}
    {rest : List (ℚ × ℕ)} {du : ℚ}
    (hg : GWF g)
    (hI : DInv g s low st)
    (hp : popMin st.heap = some ((d, u), rest))
    (hdu : lookA st.dist u = some (some du))
    (hlive : gtVal d (some du) = false) :
    ∃ ns st2, lookA g.adj u = some ns ∧
      relax u d ns { st with heap := rest } = some st2 ∧
      DInv g s d st2 ∧
      (∀ z, Settled st low z → Settled st2 d z) ∧
      ¬ Settled st low u ∧ Settled st2 d u ∧
      st2.heap.length + 1 ≤ st.heap.length + (nbrs g u).length := by
  have hmem : (d, u) ∈ st.heap := popMin_mem hp
  obtain ⟨x, hx, hxd, hlowd⟩ := hI.heapMem (d, u) hmem
  rw [hdu] at hx
  cases hx
  have hdud : d = du := by
    have h1 : ¬ (du < d) := by simpa [gtVal, decide_eq_true_eq] using hlive
    exact le_antisymm (not_lt.mp h1) hxd
  have hrest : rest = st.heap.erase (d, u) := popMin_rest hp
  have hsub : ∀ q, q ∈ rest → q ∈ st.heap := by
    intro q hq
    rw [hrest] at hq
    exact List.mem_of_mem_erase hq
  have hdle : ∀ q, q ∈ rest → d ≤ q.1 := fun q hq => entLe_fst (popMin_le hp q (hsub q hq))
  have hlowle : low ≤ d := hlowd
  have huK : u ∈ vkeys g := by
    have := mem_keys_of_lookA hdu
    rw [hI.distKeys] at this
    exact this
  obtain ⟨ns, hns⟩ : ∃ ns, lookA g.adj u = some ns := lookA_isSome_of_mem_keys huK
  have hnbrs : nbrs g u = ns := by
    unfold nbrs
    rw [hns]
    rfl
  have hmono1 : ∀ z, Settled st low z → Settled { st with heap := rest } d z :=
    fun z => settled_mono hlowle rfl hsub
  have core1 : DInv0 g s d { st with heap := rest } := by
    refine ⟨hI.graphEq, hI.distKeys, hI.prevKeys, hI.lowNN.trans hlowle, hI.startMemK,
      hI.startZero, hI.startPrev, ?_, ?_, hI.sound, ?_, hI.prevNone, ?_⟩
    · intro q hq
      obtain ⟨x2, hx2, hx2le, -⟩ := hI.heapMem q (hsub q hq)
      exact ⟨x2, hx2, hx2le, hdle q hq⟩
    · intro z
      have hsl : List.Sublist rest st.heap := by
        rw [hrest]
        exact st.heap.erase_sublist (d, u)
      exact List.Nodup.sublist (List.Sublist.map Prod.fst (List.Sublist.filter _ hsl))
        (hI.heapDup z)
    · intro z zu hz
      obtain ⟨w, x2, y2, he, hu2, hv2, heq2, hsett⟩ := hI.prevLink z zu hz
      exact ⟨w, x2, y2, he, hu2, hv2, heq2, hmono1 zu hsett⟩
    · exact rank_rebuild hI.toDInv0 _ d rfl hmono1
  have uDist1 : lookA ({ st with heap := rest } : St).dist u = some (some d) := by
    show lookA st.dist u = some (some d)
    rw [hdu, hdud]
  have uHeap1 : (d, u) ∉ ({ st with heap := rest } : St).heap := by
    show (d, u) ∉ rest
    rw [hrest]
    exact heap_mem_once hI.heapDup
  have relOther1 : ∀ z x2, z ≠ u → lookA ({ st with heap := rest } : St).dist z =
      some (some x2) →
      (x2, z) ∈ ({ st with heap := rest } : St).heap ∨
      ∀ q ∈ nbrs g z, ∃ y, lookA ({ st with heap := rest } : St).dist q.1 = some (some y) ∧
        y ≤ x2 + q.2 := by
    intro z x2 hzu hx2
    rcases hI.relaxed z x2 hx2 with hpend | hrel
    · left
      show (x2, z) ∈ rest
      have hne : (x2, z) ≠ (d, u) := by
        intro hcontra
        cases hcontra
        exact hzu rfl
      rw [hrest]
      exact (List.mem_erase_of_ne hne).mpr hpend
    · right
      exact hrel
  have hri1 : RInv g s u d [] { st with heap := rest } :=
    ⟨core1, by rw [hdud] at uDist1 ⊢; exact uDist1, uHeap1, relOther1, by simp⟩
  obtain ⟨st2, hr2, hri2, hlen2, sIff2⟩ :=
    relax_spec hg ns [] { st with heap := rest } (by rw [hnbrs]; simp) hri1
  have hrestLen : rest.length + 1 = st.heap.length := by
    rw [hrest]
    have := List.length_erase_of_mem hmem
    have hpos : 1 ≤ st.heap.length := List.length_pos.mpr (List.ne_nil_of_mem hmem)
    omega
  refine ⟨ns, st2, hns, hr2, ?_, ?_, ?_, ?_, ?_⟩
  · -- full invariant at st2
    refine ⟨hri2.core, ?_⟩
    intro z x2 hx2
    by_cases hzu : z = u
    · right
      intro q hq
      rw [hzu] at hx2 hq
      rw [hri2.uDist] at hx2
      cases hx2
      exact hri2.relDone q (by simpa [hnbrs] using hq)
    · exact hri2.relOther z x2 hzu hx2
  · -- settled monotone across the whole step
    intro z hz
    exact (sIff2 z).mp (hmono1 z hz)
  · -- the popped vertex was not settled before
    rintro ⟨xu, hxu, hxule, hni⟩
    rw [hdu] at hxu
    cases hxu
    rw [← hdud] at hni
    exact hni hmem
  · -- the popped vertex is settled afterwards
    exact (sIff2 u).mp ⟨d, uDist1, le_refl d, uHeap1⟩
  · -- heap-length bookkeeping
    have : st2.heap.length ≤ rest.length + ns.length := hlen2
    rw [hnbrs]
    omega

/-! ## Termination measure bookkeeping -/

theorem measure_mono_sum {g : Graph} {st st2 : St} {low low2 : ℚ}
    (hmono : ∀ z, Settled st low z → Settled st2 low2 z) :
    (((vkeys g).filter (fun v => !(settledB st2 low2 v))).map
      (fun v => (nbrs g v).length)).sum ≤
    (((vkeys g).filter (fun v => !(settledB st low v))).map
      (fun v => (nbrs g v).length)).sum := by
  apply sum_filter_le
  intro a ha
  rw [Bool.not_eq_true'] at ha ⊢
  cases hb : settledB st low a with
  | false => rfl
  | true =>
    have := settledB_iff.mpr (hmono a (settledB_iff.mp hb))
    rw [this] at ha
    cases ha

theorem measure_stale_lt {g : Graph} {low : ℚ} {st : St} {d : ℚ} {u : ℕ}
    {rest : List (ℚ × ℕ)}
    (hp : popMin st.heap = some ((d, u), rest))
    (hmono : ∀ z, Settled st low z → Settled { st with heap := rest } d z) :
    measureD g { st with heap := rest } d < measureD g st low := by
  have hmem := popMin_mem hp
  have hrest : rest = st.heap.erase (d, u) := popMin_rest hp
  have hlen : rest.length + 1 = st.heap.length := by
    rw [hrest]
    have := List.length_erase_of_mem hmem
    have hpos : 1 ≤ st.heap.length := List.length_pos.mpr (List.ne_nil_of_mem hmem)
    omega
  have hsum := measure_mono_sum (g := g) hmono
  have hre : ({ st with heap := rest } : St).heap.length = rest.length := rfl
  unfold measureD
  rw [hre]
  omega

theorem measure_good_lt {g : Graph} {low : ℚ} {st : St} {d : ℚ} {u : ℕ} {st2 : St}
    (hg : GWF g)
    (huK : u ∈ vkeys g)
    (hmono : ∀ z, Settled st low z → Settled st2 d z)
    (hnotset : ¬ Settled st low u)
    (hset : Settled st2 d u)
    (hlen : st2.heap.length + 1 ≤ st.heap.length + (nbrs g u).length) :
    measureD g st2 d < measureD g st low := by
  have hqu : settledB st low u = false := by
    cases hb : settledB st low u with
    | false => rfl
    | true => exact absurd (settledB_iff.mp hb) hnotset
  have hdrop := sum_filter_drop (vkeys g) (fun v => (nbrs g v).length)
    (fun v => !(settledB st2 d v)) (fun v => !(settledB st low v)) u hg.nodup huK
    (by show (!(settledB st2 d u)) = false
        rw [settledB_iff.mpr hset]
        rfl)
    (by show (!(settledB st low u)) = true
        rw [hqu]
        rfl)
    (by intro a ha
        rw [Bool.not_eq_true'] at ha ⊢
        cases hb : settledB st low a with
        | false => rfl
        | true =>
          have := settledB_iff.mpr (hmono a (settledB_iff.mp hb))
          rw [this] at ha
          cases ha)
  have hbeta : (fun v => (nbrs g v).length) u = (nbrs g u).length := rfl
  rw [hbeta] at hdrop
  unfold measureD
  omega

/-- With distinct keys, summing out-degrees over the key list is exactly the
total adjacency size. -/
theorem sum_vkeys_deg : ∀ (adj : List (ℕ × List (ℕ × ℚ))),
    (adj.map Prod.fst).Nodup →
    ((adj.map Prod.fst).map (fun v => ((lookA adj v).getD []).length)).sum =
      (adj.map (fun p => p.2.length)).sum := by
  intro adj
  induction adj with
  | nil => simp
  | cons p rest ih =>
    obtain ⟨k, l⟩ := p
    intro hnd
    rw [List.map_cons, List.map_cons, List.map_cons, List.sum_cons, List.sum_cons]
    have hk : (lookA ((k, l) :: rest) k).getD [] = l := by simp [lookA]
    rw [hk]
    have hnd' : (k :: rest.map Prod.fst).Nodup := by simpa using hnd
    have hnd2 := List.nodup_cons.mp hnd'
    congr 1
    have hcong : ∀ v ∈ rest.map Prod.fst,
        ((lookA ((k, l) :: rest) v).getD []).length = ((lookA rest v).getD []).length := by
      intro v hv
      have hkv : k ≠ v := fun h => hnd2.1 (h ▸ hv)
      rw [show lookA ((k, l) :: rest) v = lookA rest v by simp [lookA, hkv]]
    rw [List.map_congr_left hcong]
    exact ih hnd2.2

/-! ## The initial state satisfies the invariant -/

theorem lookA_init_dist {g : Graph} {s : ℕ} {v : ℕ} (hv : v ≠ s) :
    lookA (initSt g s).dist v = (lookA g.adj v).map (fun _ => (none : Option ℚ)) := by
  show lookA (setA (g.adj.map (fun p => (p.1, (none : Option ℚ)))) s (some 0)) v = _
  rw [lookA_setA_ne _ s v _ (fun h => hv h.symm)]
  exact lookA_map_init g.adj none v

theorem dinv_init {g : Graph} {s : ℕ} (hs : s ∈ vkeys g) :
    DInv g s 0 (initSt g s) := by
  have hdist0 : lookA (initSt g s).dist s = some (some 0) := by
    show lookA (setA (g.adj.map (fun p => (p.1, (none : Option ℚ)))) s (some 0)) s = _
    rw [lookA_setA_self]
  have hprevN : ∀ v, lookA (initSt g s).prev v =
      (lookA g.adj v).map (fun _ => (none : Option ℕ)) := by
    intro v
    exact lookA_map_init g.adj none v
  have hkeysmap : (g.adj.map (fun p => (p.1, (none : Option ℚ)))).map Prod.fst = vkeys g := by
    rw [List.map_map]
    rfl
  refine ⟨⟨rfl, ?_, ?_, le_refl 0, hs, hdist0, ?_, ?_, ?_, ?_, ?_, ?_, ?_⟩, ?_⟩
  · -- distKeys
    show (setA (g.adj.map (fun p => (p.1, (none : Option ℚ)))) s (some 0)).map Prod.fst = vkeys g
    rw [setA_keys_of_mem _ (by rw [hkeysmap]; exact hs), hkeysmap]
  · -- prevKeys
    show (g.adj.map (fun p => (p.1, (none : Option ℕ)))).map Prod.fst = vkeys g
    rw [List.map_map]
    rfl
  · -- startPrev
    rw [hprevN s]
    obtain ⟨l, hl⟩ := lookA_isSome_of_mem_keys (l := g.adj) hs
    rw [hl]
    rfl
  · -- heapMem
    intro q hq
    simp only [initSt, List.mem_singleton] at hq
    rcases hq with rfl
    exact ⟨0, hdist0, le_refl 0, le_refl 0⟩
  · -- heapDup
    intro z
    show ((List.filter _ [((0 : ℚ), s)]).map Prod.fst).Nodup
    exact List.Nodup.sublist
      (List.Sublist.map Prod.fst (List.filter_sublist [((0 : ℚ), s)])) (by simp)
  · -- sound
    intro v x hx
    by_cases hv : v = s
    · rw [hv] at hx ⊢
      rw [hdist0] at hx
      cases hx
      exact WalkW.refl
    · rw [lookA_init_dist hv] at hx
      cases hl : lookA g.adj v with
      | none => rw [hl] at hx; cases hx
      | some l => rw [hl] at hx; cases hx
  · -- prevLink
    intro v u hv
    rw [hprevN v] at hv
    cases hl : lookA g.adj v with
    | none => rw [hl] at hv; cases hv
    | some l => rw [hl] at hv; cases hv
  · -- prevNone
    intro v hv
    by_cases hvs : v = s
    · right; exact hvs
    · left
      rw [lookA_init_dist hvs]
      rw [hprevN v] at hv
      cases hl : lookA g.adj v with
      | none => rw [hl] at hv; cases hv
      | some l => rfl
  · -- rank: nothing is settled initially
    have hnone : ∀ z, ¬ Settled (initSt g s) 0 z := by
      rintro z ⟨x, hx, hle, hni⟩
      by_cases hz : z = s
      · rw [hz] at hx hni
        rw [hdist0] at hx
        cases hx
        exact hni (by simp [initSt])
      · rw [lookA_init_dist hz] at hx
        cases hl : lookA g.adj z with
        | none => rw [hl] at hx; cases hx
        | some l => rw [hl] at hx; cases hx
    exact ⟨0, fun _ => 0, fun z _ => rfl, fun z hz => absurd hz (hnone z), by
      intro v u hv
      rw [hprevN v] at hv
      cases hl : lookA g.adj v with
      | none => rw [hl] at hv; cases hv
      | some l => rw [hl] at hv; cases hv⟩
  · -- relaxed
    intro v x hx
    by_cases hv : v = s
    · left
      rw [hv] at hx
      rw [hdist0] at hx
      cases hx
      rw [hv]
      simp [initSt]
    · rw [lookA_init_dist hv] at hx
      cases hl : lookA g.adj v with
      | none => rw [hl] at hx; cases hx
      | some l => rw [hl] at hx; cases hx

/-! ## The main loop theorem -/

theorem dloop_run {g : Graph} {s : ℕ} (hg : GWF g) :
    ∀ (fuel : ℕ) (low : ℚ) (st : St), DInv g s low st → measureD g st low ≤ fuel →
    ∃ st2 low2, dloop fuel st = DRes.ok st2 ∧ DInv g s low2 st2 ∧ st2.heap = [] := by
  intro fuel
  induction fuel with
  | zero =>
    intro low st hI hm
    have hlen : st.heap.length = 0 := by
      unfold measureD at hm
      omega
    have hheap : st.heap = [] := List.length_eq_zero.mp hlen
    refine ⟨st, low, ?_, hI, hheap⟩
    rw [dloop, hheap]
    rfl
  | succ fuel ih =>
    intro low st hI hm
    cases hp : popMin st.heap with
    | none =>
      have hheap := popMin_none hp
      refine ⟨st, low, ?_, hI, hheap⟩
      rw [dloop, hp]
    | some pr =>
      obtain ⟨⟨d, u⟩, rest⟩ := pr
      have hmem := popMin_mem hp
      obtain ⟨du, hdu0, hxd, hlowd⟩ := hI.heapMem (d, u) hmem
      have hdu : lookA st.dist u = some (some du) := hdu0
      cases hgt : gtVal d (some du) with
      | true =>
        obtain ⟨hI2, hmono⟩ := step_stale hI hp hdu hgt
        have hmlt := measure_stale_lt (g := g) hp hmono
        have heq : dloop (fuel + 1) st = dloop fuel { st with heap := rest } := by
          simp [dloop, hp, hdu, hgt]
        rw [heq]
        exact ih d { st with heap := rest } hI2 (by omega)
      | false =>
        obtain ⟨ns, st2, hns, hr2, hI2, hmono, hnotset, hset, hlen⟩ :=
          step_good hg hI hp hdu hgt
        have huK : u ∈ vkeys g := by
          have := mem_keys_of_lookA hdu
          rw [hI.distKeys] at this
          exact this
        have hmlt := measure_good_lt hg huK hmono hnotset hset hlen
        have hnsg : lookA st.g.adj u = some ns := by
          rw [hI.graphEq]
          exact hns
        have heq : dloop (fuel + 1) st = dloop fuel st2 := by
          simp [dloop, hp, hdu, hgt, hnsg, hr2]
        rw [heq]
        exact ih d st2 hI2 (by omega)

/-- The fuel used by `dijkstra_with_paths` dominates the initial measure. -/
theorem measure_init_le {g : Graph} {s : ℕ} (hg : GWF g) :
    measureD g (initSt g s) 0 ≤ outDegSum g + 1 := by
  unfold measureD
  have hheap : (initSt g s).heap.length = 1 := rfl
  have hsum : (((vkeys g).filter (fun v => !(settledB (initSt g s) 0 v))).map
      (fun v => (nbrs g v).length)).sum ≤ outDegSum g := by
    have h1 := sum_filter_le (vkeys g) (fun v => (nbrs g v).length)
      (fun v => !(settledB (initSt g s) 0 v)) (fun _ => true) (fun a _ => rfl)
    have h2 : ((vkeys g).filter (fun _ => true)) = vkeys g := List.filter_true _
    rw [h2] at h1
    have h3 := sum_vkeys_deg g.adj hg.nodup
    unfold vkeys outDegSum
    unfold vkeys at h1
    rw [show ((g.adj.map Prod.fst).map fun v => (nbrs g v).length)
        = ((g.adj.map Prod.fst).map fun v => ((lookA g.adj v).getD []).length) from rfl] at h1
    omega
  omega

/-- `dijkstra_with_paths` terminates normally on well-formed non-negative
input with a known start vertex, with the invariant at an empty queue. -/
theorem dijkstra_run {g : Graph} {s : ℕ} (hg : GWF g) (hs : s ∈ vkeys g) :
    ∃ st2 low2, dijkstra_with_paths g s = DRes.ok st2 ∧ DInv g s low2 st2 ∧ st2.heap = [] := by
  unfold dijkstra_with_paths
  exact dloop_run hg (outDegSum g + 1) 0 (initSt g s) (dinv_init hs) (measure_init_le hg)

/-! ## Predecessor chains -/

/-- How a backward walk through a predecessor map can end. -/
inductive CEnd where
  | start
  | noneEnd
  | missing
deriving DecidableEq

/-- The backward walk of `reconstruct_path` from a vertex, as a relation:
`ChainEnd p s v L o` says that following predecessor links from `v` visits
exactly the vertices `L` (in order) and ends in outcome `o`: reaching
`s`, reaching an explicit `None` marker, or hitting a missing key (the
Python `KeyError`). -/
inductive ChainEnd (p : List (ℕ × Option ℕ)) (s : ℕ) : ℕ → List ℕ → CEnd → Prop
  | atStart : ChainEnd p s s [s] CEnd.start
  | missing {v : ℕ} : v ≠ s → lookA p v = none → ChainEnd p s v [v] CEnd.missing
  | atNone {v : ℕ} : v ≠ s → lookA p v = some none → ChainEnd p s v [v] CEnd.noneEnd
  | step {v u : ℕ} {L : List ℕ} {o : CEnd} : v ≠ s → lookA p v = some (some u) →
      ChainEnd p s u L o → ChainEnd p s v (v :: L) o

theorem chainEnd_head {p : List (ℕ × Option ℕ)} {s v : ℕ} {L : List ℕ} {o : CEnd}
    (h : ChainEnd p s v L o) : ∃ L2, L = v :: L2 := by
  cases h with
  | atStart => exact ⟨[], rfl⟩
  | missing _ _ => exact ⟨[], rfl⟩
  | atNone _ _ => exact ⟨[], rfl⟩
  | step _ _ _ => exact ⟨_, rfl⟩

theorem chainEnd_det {p : List (ℕ × Option ℕ)} {s v : ℕ} :
    ∀ {L1 L2 : List ℕ} {o1 o2 : CEnd}, ChainEnd p s v L1 o1 → ChainEnd p s v L2 o2 →
    L1 = L2 ∧ o1 = o2 := by
  intro L1 L2 o1 o2 h1 h2
  induction h1 generalizing L2 o2 with
  | atStart =>
    cases h2 with
    | atStart => exact ⟨rfl, rfl⟩
    | missing hv _ => exact absurd rfl hv
    | atNone hv _ => exact absurd rfl hv
    | step hv _ _ => exact absurd rfl hv
  | missing hv hl =>
    cases h2 with
    | atStart => exact absurd rfl hv
    | missing _ _ => exact ⟨rfl, rfl⟩
    | atNone _ hl2 => rw [hl] at hl2; cases hl2
    | step _ hl2 _ => rw [hl] at hl2; cases hl2
  | atNone hv hl =>
    cases h2 with
    | atStart => exact absurd rfl hv
    | missing _ hl2 => rw [hl] at hl2; cases hl2
    | atNone _ _ => exact ⟨rfl, rfl⟩
    | step _ hl2 _ => rw [hl] at hl2; cases hl2
  | step hv hl hch ih =>
    cases h2 with
    | atStart => exact absurd rfl hv
    | missing _ hl2 => rw [hl] at hl2; cases hl2
    | atNone _ hl2 => rw [hl] at hl2; cases hl2
    | step _ hl2 hch2 =>
      rw [hl] at hl2
      cases hl2
      obtain ⟨hL, ho⟩ := ih hch2
      exact ⟨by rw [hL], ho⟩

theorem chainEnd_mem {p : List (ℕ × Option ℕ)} {s v : ℕ} {L : List ℕ} {o : CEnd}
    (h : ChainEnd p s v L o) : ∀ z ∈ L, ∃ L2, ChainEnd p s z L2 o ∧ L2.length ≤ L.length := by
  induction h with
  | atStart =>
    intro z hz
    rcases List.mem_singleton.mp hz with rfl
    exact ⟨[z], ChainEnd.atStart, le_refl _⟩
  | missing hv hl =>
    intro z hz
    rcases List.mem_singleton.mp hz with rfl
    exact ⟨[z], ChainEnd.missing hv hl, le_refl _⟩
  | atNone hv hl =>
    intro z hz
    rcases List.mem_singleton.mp hz with rfl
    exact ⟨[z], ChainEnd.atNone hv hl, le_refl _⟩
  | step hv hl hch ih =>
    intro z hz
    rcases List.mem_cons.mp hz with rfl | hz2
    · exact ⟨_, ChainEnd.step hv hl hch, le_refl _⟩
    · obtain ⟨L2, hL2, hlen⟩ := ih z hz2
      exact ⟨L2, hL2, hlen.trans (Nat.le_succ _)⟩

theorem chainEnd_nodup {p : List (ℕ × Option ℕ)} {s v : ℕ} {L : List ℕ} {o : CEnd}
    (h : ChainEnd p s v L o) : L.Nodup := by
  induction h with
  | atStart => exact List.nodup_singleton _
  | missing _ _ => exact List.nodup_singleton _
  | atNone _ _ => exact List.nodup_singleton _
  | step hv hl hch ih =>
    rw [List.nodup_cons]
    refine ⟨?_, ih⟩
    intro hmem
    obtain ⟨L2, hL2, hlen⟩ := chainEnd_mem hch _ hmem
    obtain ⟨hLeq, -⟩ := chainEnd_det hL2 (ChainEnd.step hv hl hch)
    rw [hLeq] at hlen
    simp at hlen

theorem chainEnd_almost_keys {p : List (ℕ × Option ℕ)} {s v : ℕ} {L : List ℕ} {o : CEnd}
    (h : ChainEnd p s v L o) :
    ∃ t, ∀ z ∈ L, z ∈ p.map Prod.fst ∨ z = t := by
  induction h with
  | atStart =>
    exact ⟨s, fun z hz => Or.inr (List.mem_singleton.mp hz)⟩
  | missing hv hl =>
    rename_i v2
    exact ⟨v2, fun z hz => Or.inr (List.mem_singleton.mp hz)⟩
  | atNone hv hl =>
    rename_i v2
    refine ⟨v2, fun z hz => Or.inr (List.mem_singleton.mp hz)⟩
  | step hv hl hch ih =>
    obtain ⟨t, ht⟩ := ih
    refine ⟨t, ?_⟩
    intro z hz
    rcases List.mem_cons.mp hz with rfl | hz2
    · exact Or.inl (mem_keys_of_lookA hl)
    · exact ht z hz2

theorem chainEnd_length {p : List (ℕ × Option ℕ)} {s v : ℕ} {L : List ℕ} {o : CEnd}
    (h : ChainEnd p s v L o) : L.length ≤ p.length + 1 := by
  obtain ⟨t, ht⟩ := chainEnd_almost_keys h
  have hnd := chainEnd_nodup h
  have hsub : L ⊆ t :: (p.map Prod.fst).dedup := by
    intro z hz
    rcases ht z hz with hk | rfl
    · exact List.mem_cons_of_mem t (List.mem_dedup.mpr hk)
    · exact List.mem_cons_self z _
  have hsp := hnd.subperm hsub
  have h1 := hsp.length_le
  have h2 : (p.map Prod.fst).dedup.length ≤ (p.map Prod.fst).length :=
    (List.dedup_sublist _).length_le
  simp only [List.length_cons] at h1
  rw [List.length_map] at h2
  omega

/-! ## `reconstruct_path` against the chain relation -/

theorem rloop_none (p : List (ℕ × Option ℕ)) (s : ℕ) (fuel : ℕ) (acc : List ℕ) :
    rloop p s fuel acc none = rfinish s acc := by
  cases fuel <;> rfl

theorem rloop_run {p : List (ℕ × Option ℕ)} {s : ℕ} :
    ∀ {c : ℕ} {L : List ℕ} {o : CEnd}, ChainEnd p s c L o →
    ∀ (fuel : ℕ) (acc : List ℕ), L.length ≤ fuel →
    rloop p s fuel acc (some c) =
      (match o with
      | CEnd.start => RRes.ok (acc ++ L).reverse
      | CEnd.missing => RRes.keyErr
      | CEnd.noneEnd => RRes.ok []) := by
  intro c L o h
  induction h with
  | atStart =>
    intro fuel acc hfuel
    cases fuel with
    | zero => simp at hfuel
    | succ n =>
      simp only [rloop, if_true]
      unfold rfinish
      rw [if_pos (by simp)]
  | missing hv hl =>
    intro fuel acc hfuel
    cases fuel with
    | zero => simp at hfuel
    | succ n =>
      simp only [rloop]
      rw [if_neg hv, hl]
  | atNone hv hl =>
    intro fuel acc hfuel
    cases fuel with
    | zero => simp at hfuel
    | succ n =>
      rename_i v
      simp only [rloop]
      rw [if_neg hv, hl]
      show rloop p s n (acc ++ [v]) none = _
      rw [rloop_none]
      unfold rfinish
      rw [if_neg (by simp [hv])]
  | step hv hl hch ih =>
    intro fuel acc hfuel
    cases fuel with
    | zero => simp at hfuel
    | succ n =>
      rename_i v u L o
      simp only [rloop]
      rw [if_neg hv, hl]
      show rloop p s n (acc ++ [v]) (some u) = _
      have hlen : L.length ≤ n := by
        simp only [List.length_cons] at hfuel
        omega
      rw [ih n (acc ++ [v]) hlen]
      cases o with
      | start => simp
      | missing => rfl
      | noneEnd => rfl

/-- `reconstruct_path` follows the chain relation exactly (for distinct
endpoints): the walk returns the reversed chain if it reaches `start`,
the empty path if it ends at a `None` marker or breaks off, and raises
exactly when the chain hits a missing key. -/
theorem reconstruct_spec {p : List (ℕ × Option ℕ)} {s t : ℕ} {L : List ℕ} {o : CEnd}
    (hst : s ≠ t) (h : ChainEnd p s t L o) :
    reconstruct_path p s t =
      (match o with
      | CEnd.start => RRes.ok L.reverse
      | CEnd.missing => RRes.keyErr
      | CEnd.noneEnd => RRes.ok []) := by
  have hts : t ≠ s := fun hc => hst hc.symm
  unfold reconstruct_path
  rw [if_neg hst]
  cases h with
  | atStart => exact absurd rfl hts
  | missing hv hl =>
    rw [hl]
  | atNone hv hl =>
    rw [hl]
  | step hv hl hch =>
    rw [hl]
    have hlen := chainEnd_length (ChainEnd.step hv hl hch)
    have := rloop_run (ChainEnd.step hv hl hch) (p.length + 1) [] hlen
    rw [this]
    cases o with
    | start => simp
    | missing => rfl
    | noneEnd => rfl

/-! ## Facts about the final state -/

theorem final_relaxed {g : Graph} {s : ℕ} {low : ℚ} {stf : St}
    (hI : DInv g s low stf) (hheap : stf.heap = []) :
    ∀ u x, lookA stf.dist u = some (some x) →
    ∀ q ∈ nbrs g u, ∃ y, lookA stf.dist q.1 = some (some y) ∧ y ≤ x + q.2 := by
  intro u x hx q hq
  rcases hI.relaxed u x hx with hpend | hrel
  · rw [hheap] at hpend
    simp at hpend
  · exact hrel q hq

/-- Optimality: at termination every walk weight bounds the recorded
distance (in particular every reachable vertex has a finite distance). -/
theorem final_opt {g : Graph} {s : ℕ} {low : ℚ} {stf : St}
    (hI : DInv g s low stf) (hheap : stf.heap = []) :
    ∀ t c, WalkW g s t c → ∃ x, lookA stf.dist t = some (some x) ∧ x ≤ c := by
  intro t c hw
  induction hw with
  | refl => exact ⟨0, hI.startZero, le_refl 0⟩
  | step hw2 he ih =>
    obtain ⟨x, hx, hxle⟩ := ih
    obtain ⟨y, hy, hyle⟩ := final_relaxed hI hheap _ x hx _ he
    exact ⟨y, hy, hyle.trans (add_le_add_right hxle _)⟩

/-- At termination every vertex with a finite distance has a predecessor
chain that reaches the start vertex. -/
theorem final_chain {g : Graph} {s : ℕ} {low : ℚ} {stf : St}
    (hI : DInv g s low stf) :
    ∀ v x, lookA stf.dist v = some (some x) →
    ∃ L, ChainEnd stf.prev s v L CEnd.start := by
  obtain ⟨N, r, h1, h2, h3⟩ := hI.rank
  suffices H : ∀ (n : ℕ) (v : ℕ) (x : ℚ), r v < n → lookA stf.dist v = some (some x) →
      ∃ L, ChainEnd stf.prev s v L CEnd.start by
    intro v x hx
    exact H (r v + 1) v x (Nat.lt_succ_self _) hx
  intro n
  induction n with
  | zero => intro v x hrv; omega
  | succ n ih =>
    intro v x hrv hx
    by_cases hvs : v = s
    · rw [hvs]
      exact ⟨[s], ChainEnd.atStart⟩
    · have hvK : v ∈ vkeys g := by
        have := mem_keys_of_lookA hx
        rw [hI.distKeys] at this
        exact this
      obtain ⟨pv, hpv⟩ : ∃ pv, lookA stf.prev v = some pv :=
        lookA_isSome_of_mem_keys (by rw [hI.prevKeys]; exact hvK)
      cases pv with
      | none =>
        rcases hI.prevNone v hpv with hcontra | hcontra
        · rw [hx] at hcontra
          cases hcontra
        · exact absurd hcontra hvs
      | some u =>
        obtain ⟨w, xu, yv, he, hu, hv2, heq, hsett⟩ := hI.prevLink v u hpv
        have hrn : r u < n := by
          have := h3 v u hpv
          omega
        obtain ⟨L, hL⟩ := ih u xu hrn hu
        exact ⟨v :: L, ChainEnd.step hvs hpv hL⟩

/-- The reversed predecessor chain of a vertex with finite distance is a
path of the graph whose total weight is exactly the recorded distance. -/
theorem chain_path {g : Graph} {s : ℕ} {low : ℚ} {stf : St}
    (hI : DInv g s low stf) :
    ∀ {v : ℕ} {L : List ℕ}, ChainEnd stf.prev s v L CEnd.start →
    ∀ x, lookA stf.dist v = some (some x) →
    PathW g L.reverse x ∧ L.reverse.head? = some s := by
  intro v L h
  generalize ho : CEnd.start = o0 at h
  induction h with
  | atStart =>
    intro x hx
    rw [hI.startZero] at hx
    cases hx
    exact ⟨PathW.single s, rfl⟩
  | missing hv hl => cases ho
  | atNone hv hl => cases ho
  | step hv hl hch ih =>
    rename_i v2 u L2 o2
    intro x hx
    obtain ⟨w, xu, yv, he, hu, hv2, heq, hsett⟩ := hI.prevLink v2 u hl
    rw [hx] at hv2
    cases hv2
    obtain ⟨hpath, hhead⟩ := ih ho xu hu
    obtain ⟨L3, hL3⟩ := chainEnd_head hch
    have hlast : L2.reverse.getLast? = some u := by
      rw [hL3]
      simp
    constructor
    · rw [List.reverse_cons]
      rw [heq]
      exact PathW.snoc hpath hlast he
    · rw [List.reverse_cons]
      rw [List.head?_append_of_ne_nil]
      · exact hhead
      · rw [hL3]
        simp

/-! ## Determinism: the run depends only on the heap contents -/

/-- Two loop states that agree on graph, `dist` and `prev`, and whose heaps
hold the same entries (in possibly different internal order). -/
def HRel (st1 st2 : St) : Prop :=
  st1.g = st2.g ∧ st1.dist = st2.dist ∧ st1.prev = st2.prev ∧ st1.heap.Perm st2.heap

/-- Outcomes matching up to internal heap order. -/
def DRel : DRes → DRes → Prop
  | DRes.ok st1, DRes.ok st2 => HRel st1 st2
  | DRes.keyErr, DRes.keyErr => True
  | DRes.fuelOut, DRes.fuelOut => True
  | _, _ => False

theorem perm_erase_ent {l1 l2 : List (ℚ × ℕ)} (h : l1.Perm l2) (a : ℚ × ℕ) :
    (l1.erase a).Perm (l2.erase a) := by
  induction h with
  | nil => simp
  | cons x hperm ih =>
    rw [List.erase_cons, List.erase_cons]
    by_cases hx : (x == a) = true
    · rw [if_pos hx, if_pos hx]
      exact hperm
    · rw [if_neg hx, if_neg hx]
      exact ih.cons x
  | swap x y l =>
    simp only [List.erase_cons]
    by_cases hy : (y == a) = true <;> by_cases hx : (x == a) = true
    · rw [if_pos hy, if_pos hx]
      have hxy : x = y := (eq_of_beq hx).trans (eq_of_beq hy).symm
      rw [hxy]
    · rw [if_pos hy, if_neg hx, if_pos hy]
    · rw [if_neg hy, if_pos hx, if_pos hx]
    · rw [if_neg hy, if_neg hx, if_neg hy, if_neg hx]
      exact List.Perm.swap x y (l.erase a)
  | trans h1 h2 ih1 ih2 => exact ih1.trans ih2

theorem popMin_perm {h1 h2 : List (ℚ × ℕ)} (hp : h1.Perm h2) :
    (popMin h1 = none ∧ popMin h2 = none) ∨
    ∃ m r1 r2, popMin h1 = some (m, r1) ∧ popMin h2 = some (m, r2) ∧ r1.Perm r2 := by
  cases hh1 : h1 with
  | nil =>
    rw [hh1] at hp
    have : h2 = [] := hp.symm.eq_nil
    left
    rw [this]
    exact ⟨rfl, rfl⟩
  | cons a1 l1 =>
    cases hh2 : h2 with
    | nil =>
      rw [hh1, hh2] at hp
      cases hp.eq_nil
    | cons a2 l2 =>
      right
      rw [hh1, hh2] at hp
      have hm1 : minEnt a1 l1 ∈ a1 :: l1 := minEnt_mem a1 l1
      have hm2 : minEnt a2 l2 ∈ a2 :: l2 := minEnt_mem a2 l2
      have hmeq : minEnt a1 l1 = minEnt a2 l2 := by
        apply entLe_antisymm
        · exact minEnt_le a1 l1 _ (hp.symm.mem_iff.mp hm2)
        · exact minEnt_le a2 l2 _ (hp.mem_iff.mp hm1)
      refine ⟨minEnt a1 l1, (a1 :: l1).erase (minEnt a1 l1),
        (a2 :: l2).erase (minEnt a2 l2), rfl, ?_, ?_⟩
      · rw [hmeq]
        rfl
      · rw [hmeq]
        exact perm_erase_ent hp _

theorem relax_perm {u : ℕ} {du : ℚ} :
    ∀ (ns : List (ℕ × ℚ)) (st1 st2 : St), HRel st1 st2 →
    (relax u du ns st1 = none ∧ relax u du ns st2 = none) ∨
    ∃ r1 r2, relax u du ns st1 = some r1 ∧ relax u du ns st2 = some r2 ∧ HRel r1 r2 := by
  intro ns
  induction ns with
  | nil =>
    intro st1 st2 hr
    right
    exact ⟨st1, st2, rfl, rfl, hr⟩
  | cons q rest ih =>
    obtain ⟨v, w⟩ := q
    intro st1 st2 hr
    obtain ⟨hg, hd, hpv, hh⟩ := hr
    have hdeq : lookA st2.dist v = lookA st1.dist v := by rw [hd]
    cases hdv : lookA st1.dist v with
    | none =>
      left
      constructor
      · show (match lookA st1.dist v with
          | none => none
          | some dv => if ltInf (du + w) dv then _ else _) = none
        rw [hdv]
      · show (match lookA st2.dist v with
          | none => none
          | some dv => if ltInf (du + w) dv then _ else _) = none
        rw [hdeq, hdv]
    | some dv =>
      have heq1 : relax u du ((v, w) :: rest) st1 =
          (if ltInf (du + w) dv then
            relax u du rest
              { st1 with dist := setA st1.dist v (some (du + w)),
                         prev := setA st1.prev v (some u),
                         heap := st1.heap ++ [(du + w, v)] }
          else relax u du rest st1) := by
        show (match lookA st1.dist v with
          | none => none
          | some dv => if ltInf (du + w) dv then _ else _) = _
        rw [hdv]
      have heq2 : relax u du ((v, w) :: rest) st2 =
          (if ltInf (du + w) dv then
            relax u du rest
              { st2 with dist := setA st2.dist v (some (du + w)),
                         prev := setA st2.prev v (some u),
                         heap := st2.heap ++ [(du + w, v)] }
          else relax u du rest st2) := by
        show (match lookA st2.dist v with
          | none => none
          | some dv => if ltInf (du + w) dv then _ else _) = _
        rw [hdeq, hdv]
      rw [heq1, heq2]
      cases hlt : ltInf (du + w) dv with
      | true =>
        rw [if_pos rfl]
        apply ih
        exact ⟨hg, by rw [hd], by rw [hpv], hh.append_right _⟩
      | false =>
        simp only [Bool.false_eq_true, if_false]
        exact ih st1 st2 ⟨hg, hd, hpv, hh⟩

theorem dloop_perm : ∀ (fuel : ℕ) (st1 st2 : St), HRel st1 st2 →
    DRel (dloop fuel st1) (dloop fuel st2) := by
  intro fuel
  induction fuel with
  | zero =>
    intro st1 st2 hr
    rcases popMin_perm hr.2.2.2 with ⟨hp1, hp2⟩ | ⟨m, r1, r2, hp1, hp2, hperm⟩
    · simp only [dloop, hp1, hp2]
      exact hr
    · simp only [dloop, hp1, hp2]
      obtain ⟨md, mu⟩ := m
      trivial
  | succ fuel ih =>
    intro st1 st2 hr
    obtain ⟨hg, hd, hpv, hh⟩ := hr
    rcases popMin_perm hh with ⟨hp1, hp2⟩ | ⟨m, r1, r2, hp1, hp2, hperm⟩
    · simp only [dloop, hp1, hp2]
      exact ⟨hg, hd, hpv, hh⟩
    · obtain ⟨d, u⟩ := m
      have hdeq : lookA st2.dist u = lookA st1.dist u := by rw [hd]
      have hgeq : lookA st2.g.adj u = lookA st1.g.adj u := by rw [hg]
      cases hdu : lookA st1.dist u with
      | none =>
        simp only [dloop, hp1, hp2, hdeq, hdu]
        trivial
      | some du =>
        cases hgt : gtVal d du with
        | true =>
          simp only [dloop, hp1, hp2, hdeq, hdu, hgt, eq_self_iff_true, if_true]
          exact ih { st1 with heap := r1 } { st2 with heap := r2 } ⟨hg, hd, hpv, hperm⟩
        | false =>
          cases hns : lookA st1.g.adj u with
          | none =>
            simp only [dloop, hp1, hp2, hdeq, hdu, hgt, Bool.false_eq_true, if_false, hgeq, hns]
            trivial
          | some ns =>
            rcases @relax_perm u d ns { st1 with heap := r1 } { st2 with heap := r2 }
                ⟨hg, hd, hpv, hperm⟩ with ⟨hr1, hr2⟩ | ⟨s1, s2, hr1, hr2, hrel⟩
            · simp only [dloop, hp1, hp2, hdeq, hdu, hgt, Bool.false_eq_true, if_false,
                hgeq, hns, hr1, hr2]
              trivial
            · simp only [dloop, hp1, hp2, hdeq, hdu, hgt, Bool.false_eq_true, if_false,
                hgeq, hns, hr1, hr2]
              exact ih s1 s2 hrel

/-! ## Graph preservation -/

theorem relax_g {u : ℕ} {du : ℚ} :
    ∀ (ns : List (ℕ × ℚ)) (st st2 : St), relax u du ns st = some st2 → st2.g = st.g := by
  intro ns
  induction ns with
  | nil =>
    intro st st2 h
    cases h
    rfl
  | cons q rest ih =>
    obtain ⟨v, w⟩ := q
    intro st st2 h
    have heq : relax u du ((v, w) :: rest) st =
        (match lookA st.dist v with
        | none => none
        | some dv =>
          if ltInf (du + w) dv then
            relax u du rest
              { st with dist := setA st.dist v (some (du + w)),
                        prev := setA st.prev v (some u),
                        heap := st.heap ++ [(du + w, v)] }
          else relax u du rest st) := rfl
    rw [heq] at h
    cases hdv : lookA st.dist v with
    | none =>
      simp only [hdv] at h
      exact Option.noConfusion h
    | some dv =>
      simp only [hdv] at h
      cases hlt : ltInf (du + w) dv with
      | true =>
        rw [if_pos hlt] at h
        have hg2 := ih _ st2 h
        exact hg2
      | false =>
        have hn : ¬ (ltInf (du + w) dv = true) := by rw [hlt]; exact Bool.false_ne_true
        rw [if_neg hn] at h
        exact ih st st2 h

theorem dloop_g : ∀ (fuel : ℕ) (st st2 : St), dloop fuel st = DRes.ok st2 → st2.g = st.g := by
  intro fuel
  induction fuel with
  | zero =>
    intro st st2 h
    rw [dloop] at h
    cases hp : popMin st.heap with
    | none =>
      rw [hp] at h
      cases h
      rfl
    | some pr => rw [hp] at h; cases h
  | succ fuel ih =>
    intro st st2 h
    rw [dloop] at h
    cases hp : popMin st.heap with
    | none =>
      rw [hp] at h
      cases h
      rfl
    | some pr =>
      obtain ⟨⟨d, u⟩, rest⟩ := pr
      simp only [hp] at h
      cases hdu : lookA st.dist u with
      | none =>
        simp only [hdu] at h
        exact DRes.noConfusion h
      | some du =>
        simp only [hdu] at h
        cases hgt : gtVal d du with
        | true =>
          rw [if_pos hgt] at h
          have hg2 := ih _ st2 h
          exact hg2
        | false =>
          have hn : ¬ (gtVal d du = true) := by rw [hgt]; exact Bool.false_ne_true
          rw [if_neg hn] at h
          cases hns : lookA st.g.adj u with
          | none =>
            simp only [hns] at h
            exact DRes.noConfusion h
          | some ns =>
            simp only [hns] at h
            cases hr : relax u d ns { st with heap := rest } with
            | none =>
              simp only [hr] at h
              exact DRes.noConfusion h
            | some stm =>
              simp only [hr] at h
              have h1 := ih stm st2 h
              have h2 := relax_g ns { st with heap := rest } stm hr
              rw [h1, h2]

/-! ## Claim theorems -/

/-- C1.  For every graph with non-negative edge weights and every start
vertex known to the graph, `dijkstra_with_paths` returns normally and the
resulting `dist` map assigns to each vertex its true shortest-walk weight
from the start (a walk of exactly that weight exists and no walk is
shorter), or the infinite sentinel exactly when the vertex is unreachable. -/
theorem C1_dijkstra_shortest {g : Graph} {s : ℕ} (hg : GWF g) (hs : s ∈ vkeys g) :
    ∃ stf, dijkstra_with_paths g s = DRes.ok stf ∧
      ∀ v ∈ vkeys g,
        (∀ x, lookA stf.dist v = some (some x) →
          WalkW g s v x ∧ ∀ c, WalkW g s v c → x ≤ c) ∧
        (lookA stf.dist v = some none → ∀ c, ¬ WalkW g s v c) := by
  obtain ⟨stf, low, hok, hI, hheap⟩ := dijkstra_run hg hs
  refine ⟨stf, hok, ?_⟩
  intro v _
  constructor
  · intro x hx
    refine ⟨hI.sound v x hx, ?_⟩
    intro c hc
    obtain ⟨y, hy, hyle⟩ := final_opt hI hheap v c hc
    rw [hx] at hy
    cases hy
    exact hyle
  · intro hx c hc
    obtain ⟨y, hy, -⟩ := final_opt hI hheap v c hc
    rw [hx] at hy
    cases hy

/-- C2.  For every graph with non-negative weights, every known start
vertex, and every vertex `t` with a finite final distance `x`, the path
returned by `reconstruct_path (prev, start, t)` runs from `start` to `t`
and some choice of adjacency entries along it sums to exactly `x`. -/
theorem C2_path_sum {g : Graph} {s : ℕ} (hg : GWF g) (hs : s ∈ vkeys g) :
    ∃ stf, dijkstra_with_paths g s = DRes.ok stf ∧
      ∀ t x, lookA stf.dist t = some (some x) →
        ∃ P, reconstruct_path stf.prev s t = RRes.ok P ∧
          P.head? = some s ∧ P.getLast? = some t ∧ PathW g P x := by
  obtain ⟨stf, low, hok, hI, hheap⟩ := dijkstra_run hg hs
  refine ⟨stf, hok, ?_⟩
  intro t x hx
  by_cases hst : s = t
  · rcases hst with rfl
    rw [hI.startZero] at hx
    cases hx
    refine ⟨[s], ?_, rfl, rfl, PathW.single s⟩
    unfold reconstruct_path
    rw [if_pos rfl]
  · obtain ⟨L, hL⟩ := final_chain hI t x hx
    obtain ⟨hpath, hhead⟩ := chain_path hI hL x hx
    refine ⟨L.reverse, ?_, hhead, ?_, hpath⟩
    · rw [reconstruct_spec hst hL]
    · obtain ⟨L2, hL2⟩ := chainEnd_head hL
      rw [List.getLast?_reverse, hL2]
      rfl

/-- C3.  For every graph with non-negative weights and known start vertex,
after the run every adjacency-list edge `(u, v, w)` with `u` reachable from
the start satisfies the triangle inequality `dist[v] ≤ dist[u] + w` (both
distances being finite). -/
theorem C3_triangle {g : Graph} {s : ℕ} (hg : GWF g) (hs : s ∈ vkeys g) :
    ∃ stf, dijkstra_with_paths g s = DRes.ok stf ∧
      ∀ u, (∃ c, WalkW g s u c) →
        ∀ q ∈ nbrs g u, ∃ x y, lookA stf.dist u = some (some x) ∧
          lookA stf.dist q.1 = some (some y) ∧ y ≤ x + q.2 := by
  obtain ⟨stf, low, hok, hI, hheap⟩ := dijkstra_run hg hs
  refine ⟨stf, hok, ?_⟩
  intro u hreach q hq
  obtain ⟨c, hc⟩ := hreach
  obtain ⟨x, hx, -⟩ := final_opt hI hheap u c hc
  obtain ⟨y, hy, hyle⟩ := final_relaxed hI hheap u x hx q hq
  exact ⟨x, y, hx, hy, hyle⟩

/-- C4 (amended).  For every well-formed graph with non-negative weights
and a start vertex that is known to the graph, `dijkstra_with_paths`
returns complete `dist`/`prev` maps: both have exactly the graph's
vertices as keys, and every unreachable vertex carries the infinite
distance and the none-predecessor.  (As stated the original claim is
false: an unknown start vertex makes the reference implementation raise
`KeyError` at `graph.adj[start]` — see the counterexample.) -/
theorem C4_amended {g : Graph} {s : ℕ} (hg : GWF g) (hs : s ∈ vkeys g) :
    ∃ stf, dijkstra_with_paths g s = DRes.ok stf ∧
      stf.dist.map Prod.fst = vkeys g ∧ stf.prev.map Prod.fst = vkeys g ∧
      ∀ v ∈ vkeys g, (∀ c, ¬ WalkW g s v c) →
        lookA stf.dist v = some none ∧ lookA stf.prev v = some none := by
  obtain ⟨stf, low, hok, hI, hheap⟩ := dijkstra_run hg hs
  refine ⟨stf, hok, hI.distKeys, hI.prevKeys, ?_⟩
  intro v hv hunreach
  have hdv : lookA stf.dist v = some none := by
    obtain ⟨dv, hdv⟩ := lookA_isSome_of_mem_keys (by rw [hI.distKeys]; exact hv)
    cases dv with
    | none => exact hdv
    | some x => exact absurd (hI.sound v x hdv) (hunreach x)
  refine ⟨hdv, ?_⟩
  obtain ⟨pv, hpv⟩ := lookA_isSome_of_mem_keys (l := stf.prev)
    (by rw [hI.prevKeys]; exact hv)
  cases pv with
  | none => exact hpv
  | some u =>
    obtain ⟨w, xu, yv, -, -, hv2, -, -⟩ := hI.prevLink v u hpv
    rw [hdv] at hv2
    cases hv2

/-- C4 (counterexample to the original claim).  On the one-vertex graph
`{0: []}` with the unknown start vertex `7`, `dijkstra_with_paths` does not
return complete maps: it raises `KeyError` (at `graph.adj[7]`), because the
start vertex is given distance `0`, seeded into the heap, popped, and its
adjacency list is then read from a dict that has no such key. -/
theorem C4_counterexample :
    dijkstra_with_paths (Graph.emptyG.add_vertex 0) 7 = DRes.keyErr := by
  norm_num [Graph.add_vertex, Graph.emptyG, dijkstra_with_paths, dloop, initSt,
    outDegSum, popMin, minEnt, entLe, relax, lookA, setA, ltInf, gtVal]

/-- C5.  `reconstruct_path (prev, s, s)` returns the single-element path
`[s]` unconditionally, for every predecessor map and every vertex. -/
theorem C5_reconstruct_self (p : List (ℕ × Option ℕ)) (s : ℕ) :
    reconstruct_path p s s = RRes.ok [s] := by
  unfold reconstruct_path
  rw [if_pos rfl]

/-- C6 (amended).  For distinct endpoints, `reconstruct_path` raises the
missing-key error exactly when the backward predecessor walk from `target`
hits a vertex that is not a key of `prev` (which includes the case that
`target` itself is missing); every other terminating walk returns a path or
the empty sequence.  (As stated the original claim is false: the walk can
raise on a missing key reached through the chain even though `target`
itself is a key — see the counterexample.) -/
theorem C6_amended {p : List (ℕ × Option ℕ)} {s t : ℕ} {L : List ℕ} {o : CEnd}
    (hst : s ≠ t) (h : ChainEnd p s t L o) :
    (reconstruct_path p s t = RRes.keyErr ↔ o = CEnd.missing) ∧
    (o = CEnd.start → reconstruct_path p s t = RRes.ok L.reverse) ∧
    (o = CEnd.noneEnd → reconstruct_path p s t = RRes.ok []) := by
  rw [reconstruct_spec hst h]
  cases o <;> simp

/-- C6 (counterexample to the original claim).  With `prev = {1: 2}` (so
`target = 1` IS a key of `prev`), `start = 0`, `target = 1`, the walk
reaches `2`, which is not a key, and raises — refuting "raises exactly when
`target` is not a key of `prev`". -/
theorem C6_counterexample :
    reconstruct_path [(1, some 2)] 0 1 = RRes.keyErr ∧
      (1 : ℕ) ∈ ([((1 : ℕ), some (2 : ℕ))].map Prod.fst) ∧ (0 : ℕ) ≠ 1 := by
  refine ⟨?_, by simp, by decide⟩
  norm_num [reconstruct_path, rloop, rfinish, lookA]

/-- C7.  `dijkstra_with_paths` is deterministic: trivially, two runs on the
same graph and start are the same value of a pure function; substantively,
the loop's outcome is invariant under any permutation of the internal heap
list, because a pop always removes the entry that is minimal in the
lexicographic `(distance, vertex)` order — ties on distance are broken by
the vertex label, so the result does not depend on how the heap happens to
be laid out. -/
theorem C7_deterministic (g : Graph) (s : ℕ) (fuel : ℕ) (st1 st2 : St)
    (hrel : HRel st1 st2) :
    dijkstra_with_paths g s = dijkstra_with_paths g s ∧
      DRel (dloop fuel st1) (dloop fuel st2) :=
  ⟨rfl, dloop_perm fuel st1 st2 hrel⟩

/-- C8.  For every graph with non-negative weights and known start vertex,
following predecessor links from any vertex reachable from the start walks
a finite, cycle-free chain (its visited list has no duplicates) that
terminates at the start vertex. -/
theorem C8_prev_chain {g : Graph} {s : ℕ} (hg : GWF g) (hs : s ∈ vkeys g) :
    ∃ stf, dijkstra_with_paths g s = DRes.ok stf ∧
      ∀ v, (∃ c, WalkW g s v c) →
        ∃ L, ChainEnd stf.prev s v L CEnd.start ∧ L.Nodup := by
  obtain ⟨stf, low, hok, hI, hheap⟩ := dijkstra_run hg hs
  refine ⟨stf, hok, ?_⟩
  intro v hreach
  obtain ⟨c, hc⟩ := hreach
  obtain ⟨x, hx, -⟩ := final_opt hI hheap v c hc
  obtain ⟨L, hL⟩ := final_chain hI v x hx
  exact ⟨L, hL, chainEnd_nodup hL⟩

/-- C9.  `dijkstra_with_paths` never mutates its graph argument: the graph
component threaded through the whole computation is returned exactly as it
was passed in (same key sequence, same adjacency lists, same entry order —
the structures are equal). -/
theorem C9_no_mutation (g : Graph) (s : ℕ) (stf : St)
    (h : dijkstra_with_paths g s = DRes.ok stf) : stf.g = g :=
  dloop_g (outDegSum g + 1) (initSt g s) stf h

/-- C10.  `add_edge(v, v, w, undirected := true)` appends the self-loop
entry `(v, w)` to `v`'s adjacency list twice, so a later relaxation of `v`
iterates over it twice. -/
theorem C10_selfloop_double (g : Graph) (v : ℕ) (w : ℚ) :
    lookA (Graph.add_edge g v v w true).adj v =
      some ((lookA g.adj v).getD [] ++ [(v, w), (v, w)]) := by
  unfold Graph.add_edge
  simp only [if_pos]
  unfold Graph.appendEdge Graph.add_vertex
  cases hl : lookA g.adj v with
  | some l =>
    simp only [hl, Option.isSome_some, if_pos, Option.getD_some]
    rw [lookA_setA_self]
    rw [lookA_setA_self]
    simp
  | none =>
    simp only [hl, Option.isSome_none, Bool.false_eq_true, if_false]
    have h1 : lookA (g.adj ++ [(v, [])]) v = some [] := by
      rw [lookA_append_of_none hl]
      simp [lookA]
    simp only [h1, Option.isSome_some, if_pos, Option.getD_some, Option.getD_none]
    rw [lookA_setA_self]
    rw [lookA_setA_self]
    simp

/-! ## Concrete witnesses -/

/-- The spec's concrete scenario: undirected edges A–B weight 1, B–C
weight 2, A–C weight 4, with labels A = 0, B = 1, C = 2. -/
def gW : Graph :=
  ((Graph.emptyG.add_edge 0 1 1 true).add_edge 1 2 2 true).add_edge 0 2 4 true

theorem gW_adj : gW.adj =
    [(0, [(1, 1), (2, 4)]), (1, [(0, 1), (2, 2)]), (2, [(1, 2), (0, 4)])] := by
  norm_num [gW, Graph.add_edge, Graph.add_vertex, Graph.appendEdge, Graph.emptyG, lookA, setA]

theorem gW_wf : GWF gW := by
  constructor
  · unfold vkeys
    rw [gW_adj]
    decide
  · unfold vkeys
    rw [gW_adj]
    decide
  · rw [gW_adj]
    decide

theorem gW_mem : 0 ∈ vkeys gW := by
  unfold vkeys
  rw [gW_adj]
  decide

theorem C1_witness : GWF gW ∧ 0 ∈ vkeys gW ∧
    (∃ stf, dijkstra_with_paths gW 0 = DRes.ok stf ∧
      ∀ v ∈ vkeys gW,
        (∀ x, lookA stf.dist v = some (some x) →
          WalkW gW 0 v x ∧ ∀ c, WalkW gW 0 v c → x ≤ c) ∧
        (lookA stf.dist v = some none → ∀ c, ¬ WalkW gW 0 v c)) :=
  ⟨gW_wf, gW_mem, C1_dijkstra_shortest gW_wf gW_mem⟩

theorem C2_witness : GWF gW ∧ 0 ∈ vkeys gW ∧
    (∃ stf, dijkstra_with_paths gW 0 = DRes.ok stf ∧
      ∀ t x, lookA stf.dist t = some (some x) →
        ∃ P, reconstruct_path stf.prev 0 t = RRes.ok P ∧
          P.head? = some 0 ∧ P.getLast? = some t ∧ PathW gW P x) :=
  ⟨gW_wf, gW_mem, C2_path_sum gW_wf gW_mem⟩

theorem C3_witness : GWF gW ∧ 0 ∈ vkeys gW ∧
    (∃ stf, dijkstra_with_paths gW 0 = DRes.ok stf ∧
      ∀ u, (∃ c, WalkW gW 0 u c) →
        ∀ q ∈ nbrs gW u, ∃ x y, lookA stf.dist u = some (some x) ∧
          lookA stf.dist q.1 = some (some y) ∧ y ≤ x + q.2) :=
  ⟨gW_wf, gW_mem, C3_triangle gW_wf gW_mem⟩

theorem C4_witness : GWF gW ∧ 0 ∈ vkeys gW ∧
    (∃ stf, dijkstra_with_paths gW 0 = DRes.ok stf ∧
      stf.dist.map Prod.fst = vkeys gW ∧ stf.prev.map Prod.fst = vkeys gW ∧
      ∀ v ∈ vkeys gW, (∀ c, ¬ WalkW gW 0 v c) →
        lookA stf.dist v = some none ∧ lookA stf.prev v = some none) :=
  ⟨gW_wf, gW_mem, C4_amended gW_wf gW_mem⟩

theorem C8_witness : GWF gW ∧ 0 ∈ vkeys gW ∧
    (∃ stf, dijkstra_with_paths gW 0 = DRes.ok stf ∧
      ∀ v, (∃ c, WalkW gW 0 v c) →
        ∃ L, ChainEnd stf.prev 0 v L CEnd.start ∧ L.Nodup) :=
  ⟨gW_wf, gW_mem, C8_prev_chain gW_wf gW_mem⟩

theorem C6_witness : (0 : ℕ) ≠ 1 ∧
    ChainEnd [((1 : ℕ), some (0 : ℕ))] 0 1 [1, 0] CEnd.start ∧
    ((reconstruct_path [((1 : ℕ), some (0 : ℕ))] 0 1 = RRes.keyErr ↔
        CEnd.start = CEnd.missing) ∧
      (CEnd.start = CEnd.start →
        reconstruct_path [((1 : ℕ), some (0 : ℕ))] 0 1 = RRes.ok ([1, 0].reverse)) ∧
      (CEnd.start = CEnd.noneEnd →
        reconstruct_path [((1 : ℕ), some (0 : ℕ))] 0 1 = RRes.ok [])) := by
  have hch : ChainEnd [((1 : ℕ), some (0 : ℕ))] 0 1 [1, 0] CEnd.start :=
    ChainEnd.step (by decide) rfl ChainEnd.atStart
  exact ⟨by decide, hch, C6_amended (by decide) hch⟩

/-- Two states agreeing except for the internal order of a two-entry heap
whose entries tie on distance. -/
def stA : St := ⟨Graph.emptyG, [(0, some 0)], [(0, none)], [(1, 0), (1, 1)]⟩

def stB : St := ⟨Graph.emptyG, [(0, some 0)], [(0, none)], [(1, 1), (1, 0)]⟩

theorem C7_witness : HRel stA stB ∧
    (dijkstra_with_paths Graph.emptyG 0 = dijkstra_with_paths Graph.emptyG 0 ∧
      DRel (dloop 3 stA) (dloop 3 stB)) := by
  have hrel : HRel stA stB := ⟨rfl, rfl, rfl, List.Perm.swap (1, 1) (1, 0) []⟩
  exact ⟨hrel, C7_deterministic Graph.emptyG 0 3 stA stB hrel⟩

def gV : Graph := Graph.emptyG.add_vertex 0

theorem C9_witness :
    dijkstra_with_paths gV 0 = DRes.ok (St.mk gV [(0, some 0)] [(0, none)] []) ∧
      (St.mk gV [(0, some 0)] [(0, none)] []).g = gV := by
  have hrun : dijkstra_with_paths gV 0 = DRes.ok (St.mk gV [(0, some 0)] [(0, none)] []) := by
    norm_num [gV, Graph.add_vertex, Graph.emptyG, dijkstra_with_paths, dloop, initSt,
      outDegSum, popMin, minEnt, entLe, relax, lookA, setA, ltInf, gtVal]
  exact ⟨hrun, C9_no_mutation gV 0 _ hrun⟩
